import Mathlib

/-!
Verification of the layout-reconstruction core of the ocr-rust repository
(src/ocr-rust/src/main.rs) against its natural-language specification.

The Rust source is shallowly embedded: strings are modelled as Lean
strings (with most scanning work done on the underlying character lists),
f32 arithmetic is modelled exactly over the rationals, byte lengths of
strings (Rust str::len) are modelled with utf8 sizes, and the regular
expressions of the source are hand-compiled into explicit scanning
functions that reproduce the replace_all and captures_iter semantics of
the regex crate (leftmost, non-overlapping matches; lazy or greedy
repetition as written in each pattern).

Modelling notes, applying throughout:
* Character classes: the Rust char::is_whitespace test and the regex
  white-space class follow the Unicode White_Space property, reproduced
  below in rustIsWhitespace.  The digit class and char::is_numeric are
  modelled by the ASCII digits; no claim exercises non-ASCII digits.
* Case-insensitive matching and str::to_lowercase are modelled with
  ASCII lowercasing; all patterns involved are ASCII.
* The u8 header-level counter is modelled by Nat; the difference is
  observable only on inputs with 256 or more leading marker characters,
  where the unchecked build wraps (and a checked build panics).
-/

namespace OcrRust

/-- The Unicode White_Space characters: the set accepted by the Rust
char::is_whitespace test, by str::trim, str::split_whitespace, and by the
white-space class of the regex crate. -/
def rustIsWhitespace (c : Char) : Bool :=
  c = ' ' || c = '\t' || c = '\n' || c = '\x0b' || c = '\x0c' || c = '\r' ||
  c = '\u0085' || c = ' ' || c = ' ' ||
  (' ' ≤ c && c ≤ ' ') ||
  c = ' ' || c = ' ' || c = ' ' || c = ' ' || c = '　'

/-- ASCII decimal digits; models the regex digit class and
char::is_numeric on the inputs the program meets (see header note). -/
def asciiIsDigit (c : Char) : Bool := '0' ≤ c && c ≤ '9'

/-- ASCII lowercasing of one character; models Unicode lowercasing on the
ASCII patterns the source matches case-insensitively. -/
def asciiToLower (c : Char) : Char :=
  if 'A' ≤ c && c ≤ 'Z' then Char.ofNat (c.toNat + 32) else c

/-- Rust str::trim_start on a character list. -/
def trimStartCl (l : List Char) : List Char := l.dropWhile rustIsWhitespace

/-- Rust str::trim_end on a character list. -/
def trimEndCl (l : List Char) : List Char :=
  (l.reverse.dropWhile rustIsWhitespace).reverse

/-- Rust str::trim on a character list. -/
def trimCl (l : List Char) : List Char := trimEndCl (trimStartCl l)

/-- Whether pat is a prefix of s (Rust str::starts_with). -/
def hasPrefixCl : List Char → List Char → Bool
  | [], _ => true
  | _ :: _, [] => false
  | p :: ps, c :: cs => p = c && hasPrefixCl ps cs

/-- Whether pat is a suffix of s (Rust str::ends_with). -/
def hasSuffixCl (pat s : List Char) : Bool := hasPrefixCl pat.reverse s.reverse

/-- Index of the first occurrence of pat in s (Rust str::find), in
character positions. -/
def findSub (pat : List Char) : List Char → Option Nat
  | [] => if hasPrefixCl pat [] then some 0 else none
  | c :: cs =>
    if hasPrefixCl pat (c :: cs) then some 0
    else (findSub pat cs).map (· + 1)

/-- Whether pat occurs in s (Rust str::contains). -/
def hasSub (pat s : List Char) : Bool := (findSub pat s).isSome

/-- The utf8 byte size of a character list: Rust str::len. -/
def utf8Len (l : List Char) : Nat := (l.map Char.utf8Size).sum

/-- Split on the newline character; pure structural split, so the list of
parts is nonempty and joining the parts with newlines restores the input.
This is the line structure used by the multi-line-anchored patterns. -/
def splitNl : List Char → List (List Char)
  | [] => [[]]
  | c :: cs =>
    let r := splitNl cs
    if c = '\n' then [] :: r
    else (c :: r.headI) :: r.tail

/-- Join line parts with newline characters (inverse of splitNl). -/
def joinNl : List (List Char) → List Char
  | [] => []
  | [l] => l
  | l :: ls => l ++ '\n' :: joinNl ls

/-- Apply a per-line rewrite to every newline-separated line; models a
replace_all with a multi-line pattern anchored as one whole line whose
replacement never touches the newline characters themselves. -/
def onLines (f : List Char → List Char) (s : List Char) : List Char :=
  joinNl ((splitNl s).map f)

/-- Rust str::lines on a character list: split on newline, drop one final
empty part, and strip one trailing carriage return from each line. -/
def rustLinesCl (s : List Char) : List (List Char) :=
  let ps := splitNl s
  let ps := if ps.getLast? = some [] then ps.dropLast else ps
  ps.map (fun l => if hasSuffixCl ['\r'] l then l.dropLast else l)

/-- Fueled worker for split_whitespace.  Scanning functions in this file
take a fuel argument equal to the input length so that they are
structurally recursive and reduce inside the kernel; every recursive call
strictly shortens the character list while spending one unit of fuel, so
the fuel never runs out. -/
def splitWsFuel : Nat → List Char → List (List Char)
  | 0, _ => []
  | _ + 1, [] => []
  | fuel + 1, c :: cs =>
    if rustIsWhitespace c then splitWsFuel fuel cs
    else
      List.takeWhile (fun d => !rustIsWhitespace d) (c :: cs) ::
        splitWsFuel fuel (List.dropWhile (fun d => !rustIsWhitespace d) cs)

/-- Rust str::split_whitespace on a character list: the maximal runs of
non-white-space characters. -/
def splitWsCl (l : List Char) : List (List Char) := splitWsFuel l.length l

/-- String-level split_whitespace. -/
def splitWs (s : String) : List String := (splitWsCl s.data).map List.asString

/-! ## Block classifier (is_list_item, split_list_items, strip_leading_marker,
parse_html_tags, parse_markdown_headers, parse_table_html) -/

/-- The checkbox marker string literal exactly as it stands in the source:
the utf8 bytes of the checkbox glyph mis-decoded through a legacy code
page, giving three characters, then a space. -/
def checkboxMarker : List Char := ['‚', 'ò', 'ê', ' ']

/-- The bullet marker string literal exactly as it stands in the source:
the utf8 bytes of the bullet glyph mis-decoded the same way. -/
def bulletMarker : List Char := ['‚', 'Ä', '¢', ' ']

/-- is_list_item from the source, on character lists.  Lengths compare
utf8 byte sizes (str::len); the digit test is chars-based. -/
def isListItemCl (text : List Char) : Bool :=
  let trimmed := trimStartCl text
  if hasPrefixCl checkboxMarker trimmed then true
  else if hasPrefixCl bulletMarker trimmed then true
  else if hasPrefixCl ['*', ' '] trimmed && !hasPrefixCl ['*', ' ', '*'] trimmed then true
  else if hasPrefixCl ['-', ' '] trimmed && utf8Len trimmed > 2 &&
      !hasPrefixCl ['-', '-', '-'] trimmed then true
  else if utf8Len trimmed > 2 then
    match trimmed with
    | c0 :: c1 :: c2 :: _ =>
      asciiIsDigit c0 && (c1 = '.' || c1 = ')') && rustIsWhitespace c2
    | _ => false
  else false

/-- is_list_item on strings. -/
def is_list_item (text : String) : Bool := isListItemCl text.data

/-- One match of the numeric marker pattern (one or more digits, then a
dot or closing parenthesis, then one white-space character) at the head
of s; returns the digit count on success.  The total match length is the
digit count plus two. -/
def numMatchDigits (s : List Char) : Option Nat :=
  let ds := s.takeWhile asciiIsDigit
  if ds.length = 0 then none
  else
    match s.drop ds.length with
    | p :: w :: _ =>
      if (p = '.' || p = ')') && rustIsWhitespace w then some ds.length else none
    | _ => none

/-- Fueled worker for the numeric-marker match positions. -/
def numStartsFuel : Nat → List Char → Nat → List Nat
  | 0, _, _ => []
  | _ + 1, [], _ => []
  | fuel + 1, c :: cs, i =>
    match numMatchDigits (c :: cs) with
    | some d => i :: numStartsFuel fuel (cs.drop (d + 1)) (i + d + 2)
    | none => numStartsFuel fuel cs (i + 1)

/-- Start positions of the leftmost non-overlapping matches of the
numeric marker pattern (captures_iter semantics), scanning from
position i. -/
def numStartsAux (l : List Char) (i : Nat) : List Nat := numStartsFuel l.length l i

/-- The chunk-building loop of the numeric branch of split_list_items:
walks the match start positions, pushing the trimmed text between
consecutive match starts, then the trimmed tail from the last start. -/
def numChunksAux (trimmed : List Char) : List Nat → Nat → List String → List String
  | [], last, items =>
    if last < trimmed.length then items ++ [(trimCl (trimmed.drop last)).asString]
    else items
  | st :: rest, last, items =>
    let items :=
      if st ≠ last then
        let chunk := (trimmed.drop last).take (st - last)
        if trimCl chunk ≠ [] then items ++ [(trimCl chunk).asString] else items
      else items
    numChunksAux trimmed rest st items

/-- Fueled worker for the non-overlapping occurrence count. -/
def countSubFuel (pat : List Char) : Nat → List Char → Nat
  | 0, _ => 0
  | _ + 1, [] => 0
  | fuel + 1, c :: cs =>
    if hasPrefixCl pat (c :: cs) then
      countSubFuel pat fuel (cs.drop (pat.length - 1)) + 1
    else countSubFuel pat fuel cs

/-- Count of non-overlapping occurrences of a nonempty pat
(str::matches count). -/
def countSubAux (pat l : List Char) : Nat := countSubFuel pat l.length l

/-- Fueled worker for splitting at the occurrences of pat. -/
def splitOnSubFuel (pat : List Char) : Nat → List Char → List (List Char)
  | 0, _ => [[]]
  | _ + 1, [] => [[]]
  | fuel + 1, c :: cs =>
    if hasPrefixCl pat (c :: cs) then
      [] :: splitOnSubFuel pat fuel (cs.drop (pat.length - 1))
    else
      let r := splitOnSubFuel pat fuel cs
      (c :: r.headI) :: r.tail

/-- Split at the non-overlapping occurrences of a nonempty pat
(str::split with a string pattern). -/
def splitOnSub (pat l : List Char) : List (List Char) := splitOnSubFuel pat l.length l

/-- The symbolic marker list of split_list_items, with the two garbled
glyph literals exactly as in the source. -/
def symbolicMarkers : List (List Char) :=
  [checkboxMarker, bulletMarker, ['-', ' '], ['*', ' ']]

/-- The push loop over the parts of one symbolic-marker split: the first
part is pushed trimmed when nonempty, every later part is pushed with the
marker re-attached in front. -/
def buildSymItems (m : List Char) : Bool → List (List Char) → List String → List String
  | _, [], items => items
  | isFirst, p :: ps, items =>
    let items :=
      if isFirst then
        if trimCl p = [] then items else items ++ [(trimCl p).asString]
      else items ++ [(m ++ trimCl p).asString]
    buildSymItems m false ps items

/-- The symbolic-marker loop of split_list_items, threading the item
accumulator across markers exactly as the source does; the Bool records
whether the loop returned early. -/
def symbolicStageAux (trimmed : List Char) : List (List Char) → List String → Bool × List String
  | [], items => (false, items)
  | m :: ms, items =>
    if countSubAux m trimmed > 1 then
      let items := buildSymItems m true (splitOnSub m trimmed) items
      if items.length > 1 then (true, items)
      else symbolicStageAux trimmed ms items
    else symbolicStageAux trimmed ms items

/-- split_list_items from the source: numeric-marker stage, then the
symbolic-marker loop, then the internal-newline rule, then the whole text
as a single item.  The item accumulator survives across stages exactly as
in the source. -/
def splitListItemsCl (text : List Char) : List String :=
  let trimmed := trimCl text
  let starts := numStartsAux trimmed 0
  let items : List String :=
    if starts ≠ [] then numChunksAux trimmed starts 0 [] else []
  if starts ≠ [] ∧ items.length > 1 then items
  else
    match symbolicStageAux trimmed symbolicMarkers items with
    | (true, its) => its
    | (false, its) =>
      if isListItemCl trimmed ∧ trimmed.contains '\n' then
        let its2 := its ++ ((rustLinesCl trimmed).filterMap
          (fun l => if trimCl l = [] then none else some (trimCl l).asString))
        if its2 ≠ [] then its2 else [text.asString]
      else [text.asString]

/-- split_list_items on strings. -/
def split_list_items (text : String) : List String := splitListItemsCl text.data

/-- The anchored leading numeric-marker pattern of strip_leading_marker:
white space, then digits, then a dot or closing parenthesis, then one
white-space character; returns the total match length. -/
def numPreMatchLen (t : List Char) : Option Nat :=
  let wsn := (t.takeWhile rustIsWhitespace).length
  match numMatchDigits (t.drop wsn) with
  | some d => some (wsn + d + 2)
  | none => none

/-- strip_leading_marker from the source: symbol markers lose one leading
character plus following white space; a numeric marker prefix is removed
whole; anything else is returned trimmed. -/
def stripLeadingMarkerCl (s : List Char) : List Char :=
  let t := trimCl s
  if hasPrefixCl checkboxMarker t || hasPrefixCl bulletMarker t ||
      hasPrefixCl ['-', ' '] t || hasPrefixCl ['*', ' '] t then
    trimStartCl (t.drop 1)
  else
    match numPreMatchLen t with
    | some L => trimCl (t.drop L)
    | none => t

/-- strip_leading_marker on strings. -/
def strip_leading_marker (s : String) : String := (stripLeadingMarkerCl s.data).asString

/-- One match of the center-tag pattern (opening or closing form) at the
head of s, giving the match length. -/
def centerTagLen (s : List Char) : Option Nat :=
  if hasPrefixCl "<center>".data s then some 8
  else if hasPrefixCl "</center>".data s then some 9
  else none

/-- The table-related tag names of the html-stripping pattern. -/
def tableTagNames : List (List Char) :=
  ["table".data, "tr".data, "td".data, "th".data, "thead".data, "tbody".data]

/-- One match of the table-tag pattern (angle bracket, optional slash,
one tag name, closing angle bracket) at the head of s, giving the match
length. -/
def tableTagLen (s : List Char) : Option Nat :=
  match s with
  | '<' :: '/' :: r =>
    (tableTagNames.find? (fun n => hasPrefixCl (n ++ ['>']) r)).map (fun n => n.length + 3)
  | '<' :: r =>
    (tableTagNames.find? (fun n => hasPrefixCl (n ++ ['>']) r)).map (fun n => n.length + 2)
  | _ => none

/-- Fueled worker for replaceScan. -/
def replaceScanFuel (matchLen : List Char → Option Nat) (repl : List Char) :
    Nat → List Char → List Char
  | 0, _ => []
  | _ + 1, [] => []
  | fuel + 1, c :: cs =>
    match matchLen (c :: cs) with
    | some L => repl ++ replaceScanFuel matchLen repl fuel (cs.drop (L - 1))
    | none => c :: replaceScanFuel matchLen repl fuel cs

/-- replace_all with a fixed replacement over a pattern given by a
head-match length function; leftmost non-overlapping matches.  Every
pattern used has positive match length. -/
def replaceScan (matchLen : List Char → Option Nat) (repl : List Char)
    (l : List Char) : List Char :=
  replaceScanFuel matchLen repl l.length l

/-- parse_html_tags from the source: records a center tag anywhere,
removes center tags, rewrites table-structure tags to single spaces, and
trims. -/
def parseHtmlTagsCl (text : List Char) : List Char × Bool :=
  let isCentered := hasSub "<center>".data text
  let cleaned := replaceScan centerTagLen [] text
  let cleaned := replaceScan tableTagLen [' '] cleaned
  (trimCl cleaned, isCentered)

/-- parse_html_tags on strings. -/
def parse_html_tags (text : String) : String × Bool :=
  ((parseHtmlTagsCl text.data).1.asString, (parseHtmlTagsCl text.data).2)

/-- The leading-marker loop of parse_markdown_headers: counts leading
hash characters; stops keeping the count at white space or end of text,
and resets to zero at any other character. -/
def headerLevelLoop : List Char → Nat → Nat
  | [], lvl => lvl
  | c :: cs, lvl =>
    if c = '#' then headerLevelLoop cs (lvl + 1)
    else if rustIsWhitespace c then lvl
    else 0

/-- parse_markdown_headers from the source, on character lists. -/
def parseMarkdownHeadersCl (text : List Char) : List Char × Nat :=
  let trimmed := trimCl text
  let level := headerLevelLoop trimmed 0
  if 0 < level ∧ level ≤ 6 then
    (trimCl (trimmed.dropWhile (· = '#')), level)
  else (text, 0)

/-- parse_markdown_headers on strings. -/
def parse_markdown_headers (text : String) : String × Nat :=
  ((parseMarkdownHeadersCl text.data).1.asString, (parseMarkdownHeadersCl text.data).2)

/-- Case-insensitive prefix test (ASCII lowercasing; the patterns are
ASCII). -/
def hasPrefixCICl : List Char → List Char → Bool
  | [], _ => true
  | _ :: _, [] => false
  | p :: ps, c :: cs => asciiToLower p = asciiToLower c && hasPrefixCICl ps cs

/-- First case-insensitive occurrence of any of the patterns, giving the
position and the matched pattern length. -/
def findAnyCI (pats : List (List Char)) : List Char → Option (Nat × Nat)
  | [] => (pats.find? (fun p => hasPrefixCICl p [])).map (fun p => (0, p.length))
  | c :: cs =>
    match pats.find? (fun p => hasPrefixCICl p (c :: cs)) with
    | some p => some (0, p.length)
    | none => (findAnyCI pats cs).map (fun r => (r.1 + 1, r.2))

/-- The lazy pair-capture scan shared by the row and cell patterns of
parse_table_html: at each position, an opening form followed by the
nearest closing form captures the text between; scanning resumes after
the closing form.  Case-insensitive, dot-matches-newline, lazy body,
exactly as the patterns are written.  All patterns are nonempty. -/
def scanPairsCIFuel (opens closes : List (List Char)) :
    Nat → List Char → List (List Char)
  | 0, _ => []
  | _ + 1, [] => []
  | fuel + 1, c :: cs =>
    match opens.find? (fun p => hasPrefixCICl p (c :: cs)) with
    | some op =>
      let rest := cs.drop (op.length - 1)
      match findAnyCI closes rest with
      | some kl =>
        rest.take kl.1 :: scanPairsCIFuel opens closes fuel (rest.drop (kl.1 + kl.2))
      | none => scanPairsCIFuel opens closes fuel cs
    | none => scanPairsCIFuel opens closes fuel cs

/-- Entry point of the pair-capture scan (see scanPairsCIFuel). -/
def scanPairsCI (opens closes : List (List Char)) (l : List Char) :
    List (List Char) :=
  scanPairsCIFuel opens closes l.length l

/-- parse_table_html from the source: capture row bodies, then cell
bodies inside each row, trim the cells, and keep only rows with at least
one cell. -/
def parseTableHtmlCl (tableHtml : List Char) : List (List String) :=
  let rowBodies := scanPairsCI ["<tr>".data] ["</tr>".data] tableHtml
  rowBodies.filterMap (fun body =>
    let cols := (scanPairsCI ["<td>".data, "<th>".data] ["</td>".data, "</th>".data]
      body).map (fun cell => (trimCl cell).asString)
    if cols ≠ [] then some cols else none)

/-- parse_table_html on strings. -/
def parse_table_html (s : String) : List (List String) := parseTableHtmlCl s.data

/-- Whether the text after the counted leading marker run begins with
white space or has ended; the success condition of header parsing. -/
def headWs : List Char → Bool
  | [] => true
  | c :: _ => rustIsWhitespace c

/-- Whether pat occurs in s under case-insensitive comparison. -/
def hasSubCI (pat : List Char) : List Char → Bool
  | [] => hasPrefixCICl pat []
  | c :: cs => hasPrefixCICl pat (c :: cs) || hasSubCI pat cs

/-! ## Supporting lemmas for the classifier claims -/

theorem dropWhile_eq_drop_takeWhile (p : Char → Bool) (l : List Char) :
    l.dropWhile p = l.drop (l.takeWhile p).length := by
  induction l with
  | nil => rfl
  | cons c cs ih =>
    by_cases h : p c
    · simp [List.dropWhile, List.takeWhile, h, ih]
    · simp [List.dropWhile, List.takeWhile, h]

theorem headerLevelLoop_eq (l : List Char) (acc : Nat) :
    headerLevelLoop l acc =
      if headWs (l.dropWhile (· = '#'))
      then acc + (l.takeWhile (· = '#')).length
      else 0 := by
  induction l generalizing acc with
  | nil => simp [headerLevelLoop, headWs]
  | cons c cs ih =>
    by_cases h : c = '#'
    · subst h
      have h1 : headerLevelLoop ('#' :: cs) acc = headerLevelLoop cs (acc + 1) := by
        simp [headerLevelLoop]
      have h2 : List.dropWhile (fun x => decide (x = '#')) ('#' :: cs) =
          List.dropWhile (fun x => decide (x = '#')) cs := by
        simp [List.dropWhile_cons]
      have h3 : List.takeWhile (fun x => decide (x = '#')) ('#' :: cs) =
          '#' :: List.takeWhile (fun x => decide (x = '#')) cs := by
        simp [List.takeWhile_cons]
      rw [h1, ih, h2, h3]
      split
      · simp; omega
      · rfl
    · have h2 : List.dropWhile (fun x => decide (x = '#')) (c :: cs) = c :: cs := by
        simp [List.dropWhile_cons, h]
      have h3 : List.takeWhile (fun x => decide (x = '#')) (c :: cs) = [] := by
        simp [List.takeWhile_cons, h]
      rw [h2, h3]
      by_cases hw : rustIsWhitespace c <;>
        simp [headerLevelLoop, h, hw, headWs]

theorem scanPairsCIFuel_eq_nil (opens closes : List (List Char)) (fuel : Nat)
    (s : List Char) (h : ∀ p ∈ opens, hasSubCI p s = false) :
    scanPairsCIFuel opens closes fuel s = [] := by
  induction fuel generalizing s with
  | zero => rfl
  | succ fuel ih =>
    match s with
    | [] => rfl
    | c :: cs =>
      have hfind : opens.find? (fun p => hasPrefixCICl p (c :: cs)) = none := by
        rw [List.find?_eq_none]
        intro p hp
        have := h p hp
        simp only [hasSubCI, Bool.or_eq_false_iff] at this
        simp [this.1]
      rw [scanPairsCIFuel, hfind]
      exact ih cs (fun p hp => by
        have := h p hp
        simp only [hasSubCI, Bool.or_eq_false_iff] at this
        exact this.2)

theorem scanPairsCI_eq_nil (opens closes : List (List Char)) (s : List Char)
    (h : ∀ p ∈ opens, hasSubCI p s = false) :
    scanPairsCI opens closes s = [] :=
  scanPairsCIFuel_eq_nil opens closes s.length s h

/-! ## Claims C3, C4, C5, C6, C10 -/

/-- C3 (code bug): the list predicate is claimed to accept a checkbox
glyph followed by a space, and in particular to map the checkbox example
to true; on the code the checkbox example evaluates to false, because the
marker literal in the source is a garbled byte sequence rather than the
checkbox glyph (contradicting the adjacent source comments that call it
the checkbox marker).  The remaining documented examples of the claim do
hold, as the other conjuncts record. -/
theorem c3_list_predicate_checkbox_divergence :
    is_list_item "☐ Task" = false ∧
    is_list_item "1. Item" = true ∧
    is_list_item "- " = false ∧
    is_list_item "---" = false ∧
    is_list_item "1x Item" = false := by decide

/-- C4 (code bug): list splitting is claimed to split a text with two
bullet markers into two items; on the code the bullet example stays a
single item, because the symbolic marker literals in the source are the
garbled byte sequences rather than the bullet glyph.  The numbered
example of the claim does hold. -/
theorem c4_list_splitting_bullet_divergence :
    split_list_items "• A • B" = ["• A • B"] ∧
    split_list_items "1. A 2. B 3. C" = ["1. A", "2. B", "3. C"] := by decide

/-- C5 counterexample: a marker run that reaches the end of the text is
accepted by the code, refuting the claim that a nonzero level arises only
when the run is immediately followed by white space. -/
theorem c5_header_run_at_end_counterexample :
    parse_markdown_headers "###" = ("", 3) := by decide

/-- C5 amended: header parsing yields a nonzero level exactly when the
leading marker run of the trimmed text has length one to six and is
followed by white space or by the end of the text; the marker run and
surrounding white space are then stripped; in every other case the level
is zero and the text is returned unmodified.  The run-length bound keeps
the statement inside the range where the Nat model of the u8 counter is
exact. -/
theorem parseMarkdownHeadersCl_eq (l : List Char) :
    parseMarkdownHeadersCl l =
      (if 1 ≤ ((trimCl l).takeWhile (· = '#')).length ∧
          ((trimCl l).takeWhile (· = '#')).length ≤ 6 ∧
          headWs ((trimCl l).drop ((trimCl l).takeWhile (· = '#')).length)
       then (trimCl ((trimCl l).drop ((trimCl l).takeWhile (· = '#')).length),
             ((trimCl l).takeWhile (· = '#')).length)
       else (l, 0)) := by
  unfold parseMarkdownHeadersCl
  dsimp only
  rw [headerLevelLoop_eq, ← dropWhile_eq_drop_takeWhile]
  by_cases hws : headWs (List.dropWhile (fun x => decide (x = '#')) (trimCl l)) = true
  · rw [if_pos hws]
    by_cases hk : 0 < 0 + ((trimCl l).takeWhile (· = '#')).length ∧
        0 + ((trimCl l).takeWhile (· = '#')).length ≤ 6
    · have hc : 1 ≤ ((trimCl l).takeWhile (· = '#')).length ∧
          ((trimCl l).takeWhile (· = '#')).length ≤ 6 ∧
          headWs (List.dropWhile (fun x => decide (x = '#')) (trimCl l)) = true :=
        ⟨by omega, by omega, hws⟩
      rw [if_pos hk, if_pos hc, Nat.zero_add]
    · have hc : ¬ (1 ≤ ((trimCl l).takeWhile (· = '#')).length ∧
          ((trimCl l).takeWhile (· = '#')).length ≤ 6 ∧
          headWs (List.dropWhile (fun x => decide (x = '#')) (trimCl l)) = true) := by
        intro hcon
        exact hk ⟨by omega, by omega⟩
      rw [if_neg hk, if_neg hc]
  · have hlvl : ¬ (0 < 0 ∧ 0 ≤ 6) := by omega
    have hc : ¬ (1 ≤ ((trimCl l).takeWhile (· = '#')).length ∧
        ((trimCl l).takeWhile (· = '#')).length ≤ 6 ∧
        headWs (List.dropWhile (fun x => decide (x = '#')) (trimCl l)) = true) :=
      fun hcon => hws hcon.2.2
    rw [if_neg hws, if_neg hlvl, if_neg hc]

/-- C5 amended: header parsing yields a nonzero level exactly when the
leading marker run of the trimmed text has length one to six and is
followed by white space or by the end of the text; the marker run and
surrounding white space are then stripped; in every other case the level
is zero and the text is returned unmodified.  The run-length bound keeps
the statement inside the range where the Nat model of the u8 counter is
exact. -/
theorem c5_header_parsing_amended (s : String)
    (_hrun : ((trimCl s.data).takeWhile (· = '#')).length ≤ 255) :
    parse_markdown_headers s =
      (if 1 ≤ ((trimCl s.data).takeWhile (· = '#')).length ∧
          ((trimCl s.data).takeWhile (· = '#')).length ≤ 6 ∧
          headWs ((trimCl s.data).drop ((trimCl s.data).takeWhile (· = '#')).length)
       then ((trimCl ((trimCl s.data).drop
              ((trimCl s.data).takeWhile (· = '#')).length)).asString,
             ((trimCl s.data).takeWhile (· = '#')).length)
       else (s, 0)) := by
  clear _hrun
  unfold parse_markdown_headers
  rw [parseMarkdownHeadersCl_eq]
  by_cases hc : 1 ≤ ((trimCl s.data).takeWhile (· = '#')).length ∧
      ((trimCl s.data).takeWhile (· = '#')).length ≤ 6 ∧
      headWs ((trimCl s.data).drop ((trimCl s.data).takeWhile (· = '#')).length) = true
  · rw [if_pos hc, if_pos hc]
  · rw [if_neg hc, if_neg hc]
    show (String.mk s.data, 0) = (s, 0)
    rfl

/-- C5 witness: the amended theorem applied to the leading documented
example. -/
theorem c5_header_parsing_amended_witness :
    ((trimCl "### Title".data).takeWhile (· = '#')).length ≤ 255 ∧
    parse_markdown_headers "### Title" = ("Title", 3) :=
  ⟨by decide, (c5_header_parsing_amended "### Title" (by decide)).trans (by decide)⟩

/-- C6 counterexample: an input with an opening table tag and no closing
table tag, but a complete row pair, yields one row, refuting the claim
that any input containing an unclosed opening table tag yields zero
rows. -/
theorem c6_unclosed_table_counterexample :
    parse_table_html "<table><tr><td>A</td></tr>" = [["A"]] := by decide

/-- C6 amended: on the documented well-formed example the extractor
yields exactly one row with the two trimmed cells; and the extractor
ignores the table tags themselves, so an input with no case-insensitive
occurrence of an opening row tag (in particular a bare opening table tag
with no closing tag and no row markup) yields zero rows. -/
theorem c6_table_parsing_amended :
    parse_table_html "<table><tr><td>A</td><td>B</td></tr></table>" = [["A", "B"]] ∧
    ∀ s : String, hasSubCI "<tr>".data s.data = false → parse_table_html s = [] := by
  refine ⟨by decide, fun s h => ?_⟩
  unfold parse_table_html parseTableHtmlCl
  rw [scanPairsCI_eq_nil _ _ s.data (by simpa using h)]
  rfl

/-- C6 witness: the amended theorem applied to the bare opening table
tag. -/
theorem c6_table_parsing_amended_witness :
    hasSubCI "<tr>".data "<table>".data = false ∧ parse_table_html "<table>" = [] :=
  ⟨by decide, c6_table_parsing_amended.2 "<table>" (by decide)⟩

/-- C10 (confirmed): every row produced by the table extractor has at
least one cell, because a row body with no cell pairs is dropped rather
than pushed. -/
theorem c10_table_rows_nonempty (s : String) :
    ∀ row ∈ parse_table_html s, row ≠ [] := by
  intro row hrow
  unfold parse_table_html parseTableHtmlCl at hrow
  rw [List.mem_filterMap] at hrow
  obtain ⟨body, _, hb⟩ := hrow
  dsimp only at hb
  split at hb
  · rename_i hcols
    cases hb
    exact hcols
  · cases hb

/-- C10 witness: the nonemptiness theorem applied to a concrete row of a
concrete parse. -/
theorem c10_table_rows_nonempty_witness :
    ["A"] ∈ parse_table_html "<tr><td>A</td></tr>" ∧ ["A"] ≠ [] :=
  ⟨by decide, c10_table_rows_nonempty "<tr><td>A</td></tr>" ["A"] (by decide)⟩

/-! ## The shared greedy word wrap of the plain-mode layout engine -/

/-- The utf8 byte length of a word as a rational; word.len() as f32 in
the source. -/
def wordWidth (avgW : ℚ) (w : String) : ℚ := (utf8Len w.data : ℚ) * avgW

/-- The width-accumulating greedy word-wrap loop of convert_plain_text
(the non-list text path): accumulate words into the current line while
the estimated width stays within the limit; when adding the next word
would exceed the limit and the line is nonempty, flush it and start the
next line with that word; flush the remainder at the end.  A produced
line is represented by its list of words; the drawn text is that list
joined by single spaces, exactly as the source pushes a space before
every word but the first.  The two is_empty tests of the source (in the
flush guard and in the extra-space term) are rendered as the match on the
current line: with an empty current line the flush guard is false and the
extra space is zero. -/
def plainWrapLoop (maxW avgW : ℚ) : List String → List String → ℚ → List (List String)
  | [], [], _ => []
  | [], c :: cs, _ => [c :: cs]
  | w :: ws, [], curW =>
    plainWrapLoop maxW avgW ws [w] (curW + 0 + wordWidth avgW w)
  | w :: ws, c :: cs, curW =>
    if curW + avgW + wordWidth avgW w > maxW then
      (c :: cs) :: plainWrapLoop maxW avgW ws [w] (wordWidth avgW w)
    else
      plainWrapLoop maxW avgW ws ((c :: cs) ++ [w]) (curW + avgW + wordWidth avgW w)

/-- The lines the plain-mode wrap of a text draws, as word groups. -/
def plainWrapGroups (maxW avgW : ℚ) (text : String) : List (List String) :=
  plainWrapLoop maxW avgW (splitWs text) [] 0

/-- Joining a list of strings with single spaces; the vocabulary of the
wrap-fidelity property. -/
def spaceJoin : List String → String
  | [] => ""
  | [x] => x
  | x :: xs => x ++ " " ++ spaceJoin xs

/-- The wrapped output lines of the plain-mode wrap of a text. -/
def plain_wrap_lines (maxW avgW : ℚ) (text : String) : List String :=
  (plainWrapGroups maxW avgW text).map spaceJoin

theorem plainWrapLoop_join (maxW avgW : ℚ) (ws : List String) :
    ∀ (cur : List String) (curW : ℚ),
      (plainWrapLoop maxW avgW ws cur curW).flatten = cur ++ ws := by
  induction ws with
  | nil =>
    intro cur curW
    cases cur <;> simp [plainWrapLoop]
  | cons w ws ih =>
    intro cur curW
    cases cur with
    | nil =>
      rw [plainWrapLoop, ih]
      rfl
    | cons c cs =>
      rw [plainWrapLoop]
      split
      · rw [List.flatten_cons, ih]
        rfl
      · rw [ih]
        simp

theorem plainWrapLoop_groups_ne_nil (maxW avgW : ℚ) (ws : List String) :
    ∀ (cur : List String) (curW : ℚ),
      ∀ g ∈ plainWrapLoop maxW avgW ws cur curW, g ≠ [] := by
  induction ws with
  | nil =>
    intro cur curW g hg
    cases cur with
    | nil => cases hg
    | cons c cs =>
      rw [plainWrapLoop, List.mem_singleton] at hg
      subst hg
      simp
  | cons w ws ih =>
    intro cur curW g hg
    cases cur with
    | nil => exact ih _ _ g hg
    | cons c cs =>
      rw [plainWrapLoop] at hg
      split at hg
      · rcases List.mem_cons.mp hg with h | h
        · subst h; simp
        · exact ih _ _ g h
      · exact ih _ _ g hg

theorem plainWrapLoop_overlong (maxW avgW : ℚ) (havg : 0 ≤ avgW) (ws : List String) :
    ∀ (cur : List String) (curW : ℚ), 0 ≤ curW →
    (∀ v ∈ cur, wordWidth avgW v ≤ curW) →
    (∀ v ∈ cur, wordWidth avgW v > maxW → cur = [v]) →
    ∀ g ∈ plainWrapLoop maxW avgW ws cur curW,
      ∀ v ∈ g, wordWidth avgW v > maxW → g = [v] := by
  induction ws with
  | nil =>
    intro cur curW _ _ hP g hg
    cases cur with
    | nil => cases hg
    | cons c cs =>
      rw [plainWrapLoop, List.mem_singleton] at hg
      subst hg
      exact hP
  | cons w ws ih =>
    intro cur curW hW hR hP g hg
    have hww : 0 ≤ wordWidth avgW w := by
      have h0 : (0:ℚ) ≤ (utf8Len w.data : ℚ) := by positivity
      exact mul_nonneg h0 havg
    cases cur with
    | nil =>
      rw [plainWrapLoop] at hg
      refine ih [w] (curW + 0 + wordWidth avgW w) (by linarith) ?_ ?_ g hg
      · intro v hv
        rw [List.mem_singleton] at hv
        subst hv
        linarith
      · intro v hv _
        rw [List.mem_singleton] at hv
        subst hv
        rfl
    | cons c cs =>
      rw [plainWrapLoop] at hg
      split at hg
      · rcases List.mem_cons.mp hg with h | h
        · subst h; exact hP
        · refine ih [w] (wordWidth avgW w) hww ?_ ?_ g h
          · intro v hv
            rw [List.mem_singleton] at hv
            subst hv
            exact le_refl _
          · intro v hv _
            rw [List.mem_singleton] at hv
            subst hv
            rfl
      · rename_i hcond
        have hle : curW + avgW + wordWidth avgW w ≤ maxW := le_of_not_lt hcond
        refine ih ((c :: cs) ++ [w]) (curW + avgW + wordWidth avgW w)
          (by linarith) ?_ ?_ g hg
        · intro v hv
          rcases List.mem_append.mp hv with h | h
          · have := hR v h
            linarith
          · rw [List.mem_singleton] at h
            subst h
            linarith
        · intro v hv hbig
          rcases List.mem_append.mp hv with h | h
          · have h1 := hR v h
            have h2 : wordWidth avgW v ≤ maxW := by linarith
            linarith
          · rw [List.mem_singleton] at h
            subst h
            have h2 : wordWidth avgW v ≤ maxW := by linarith
            linarith

theorem spaceJoin_append (a b : List String) (ha : a ≠ []) (hb : b ≠ []) :
    spaceJoin (a ++ b) = spaceJoin a ++ " " ++ spaceJoin b := by
  induction a with
  | nil => exact absurd rfl ha
  | cons x xs ih =>
    cases xs with
    | nil =>
      cases b with
      | nil => exact absurd rfl hb
      | cons y ys => rfl
    | cons x2 xs2 =>
      have ihh := ih (by simp)
      have e1 : spaceJoin (x :: x2 :: (xs2 ++ b)) =
          x ++ " " ++ spaceJoin (x2 :: (xs2 ++ b)) := rfl
      have e2 : spaceJoin (x :: x2 :: xs2) = x ++ " " ++ spaceJoin (x2 :: xs2) := rfl
      calc spaceJoin ((x :: x2 :: xs2) ++ b)
          = x ++ " " ++ spaceJoin (x2 :: (xs2 ++ b)) := e1
        _ = x ++ " " ++ (spaceJoin (x2 :: xs2) ++ " " ++ spaceJoin b) := by rw [← ihh]; rfl
        _ = (x ++ " " ++ spaceJoin (x2 :: xs2)) ++ " " ++ spaceJoin b := by
            simp [String.append_assoc]
        _ = spaceJoin (x :: x2 :: xs2) ++ " " ++ spaceJoin b := by rw [e2]

theorem spaceJoin_map_flatten (groups : List (List String))
    (h : ∀ g ∈ groups, g ≠ []) :
    spaceJoin (groups.map spaceJoin) = spaceJoin groups.flatten := by
  induction groups with
  | nil => rfl
  | cons g gs ih =>
    cases gs with
    | nil => simp [spaceJoin]
    | cons g2 gs2 =>
      have hg : g ≠ [] := h g (by simp)
      have hfl : (g2 :: gs2).flatten ≠ [] := by
        have hg2 : g2 ≠ [] := h g2 (by simp)
        rw [List.flatten_cons]
        intro hcon
        exact hg2 (List.append_eq_nil.mp hcon).1
      have ihh := ih (fun x hx => h x (List.mem_cons_of_mem _ hx))
      have e1 : spaceJoin ((g :: g2 :: gs2).map spaceJoin) =
          spaceJoin g ++ " " ++ spaceJoin ((g2 :: gs2).map spaceJoin) := rfl
      calc spaceJoin ((g :: g2 :: gs2).map spaceJoin)
          = spaceJoin g ++ " " ++ spaceJoin ((g2 :: gs2).map spaceJoin) := e1
        _ = spaceJoin g ++ " " ++ spaceJoin (g2 :: gs2).flatten := by rw [ihh]
        _ = spaceJoin (g ++ (g2 :: gs2).flatten) := (spaceJoin_append g _ hg hfl).symm
        _ = spaceJoin (g :: g2 :: gs2).flatten := by simp [List.flatten_cons]

/-- C1 (confirmed): for every text and every wrap parameter choice with a
nonnegative glyph-width estimate (the engine always supplies a positive
one), joining the wrapped output lines of the plain-mode greedy word wrap
with single spaces reproduces the whitespace-normalized original text (the
words in order, joined by single spaces): no word is dropped, duplicated,
reordered or split.  Moreover any produced line containing a word whose
estimated width alone exceeds the maximum line width consists of exactly
that word: an overlong word is emitted as its own overlong line. -/
theorem c1_plain_wrap_fidelity (maxW avgW : ℚ) (havg : 0 ≤ avgW) (text : String) :
    spaceJoin (plain_wrap_lines maxW avgW text) = spaceJoin (splitWs text) ∧
    ∀ g ∈ plainWrapGroups maxW avgW text, g ≠ [] ∧
      ∀ w ∈ g, wordWidth avgW w > maxW → g = [w] := by
  refine ⟨?_, fun g hg => ⟨?_, ?_⟩⟩
  · unfold plain_wrap_lines plainWrapGroups
    rw [spaceJoin_map_flatten _ (plainWrapLoop_groups_ne_nil maxW avgW (splitWs text) [] 0),
      plainWrapLoop_join]
    rfl
  · exact plainWrapLoop_groups_ne_nil maxW avgW (splitWs text) [] 0 g hg
  · exact plainWrapLoop_overlong maxW avgW havg (splitWs text) [] 0 (le_refl 0)
      (by simp) (by simp) g hg

/-- C1 witness: the fidelity theorem applied at concrete parameters and a
concrete text whose first word alone exceeds the line limit. -/
theorem c1_plain_wrap_fidelity_witness :
    (0:ℚ) ≤ 1 ∧
    (spaceJoin (plain_wrap_lines 5 1 "aaaaaaaaaa bb cc") =
        spaceJoin (splitWs "aaaaaaaaaa bb cc") ∧
      ∀ g ∈ plainWrapGroups 5 1 "aaaaaaaaaa bb cc", g ≠ [] ∧
        ∀ w ∈ g, wordWidth 1 w > 5 → g = [w]) :=
  ⟨by norm_num, c1_plain_wrap_fidelity 5 1 (by norm_num) "aaaaaaaaaa bb cc"⟩

/-! ## The OCR block parser (parse_coordinates, parse_ocr_blocks) -/

/-- The classified, positioned text block of the source (struct
TextBlock); width stands for the source field holding x2 minus x1. -/
structure TextBlock where
  text : String
  x : ℚ
  y : ℚ
  width : ℚ
  height : ℚ
  force_page_break : Bool
  image_index : Nat
deriving Repr, DecidableEq

/-- The numeric value of an ASCII digit run. -/
def digitsVal (l : List Char) : Nat :=
  l.foldl (fun a c => a * 10 + (c.toNat - 48)) 0

/-- Rust usize::from_str: an optional plus sign then one or more
digits.  Overflow of the machine word is not modelled; no claim involves
indices near the word size. -/
def parseUsizeCl (s : List Char) : Option Nat :=
  let r := match s with
    | '+' :: r => r
    | r => r
  if r ≠ [] ∧ r.all asciiIsDigit then some (digitsVal r) else none

/-- Rust f32::from_str on the finite decimal forms: optional sign, an
integer part and an optional fraction (at least one digit between them),
and an optional exponent.  The special forms inf and nan are not
modelled; the coordinate payloads the program reads are plain decimals.
The value is exact over the rationals. -/
def parseRustFloat (s : List Char) : Option ℚ :=
  let sg : ℚ × List Char :=
    match s with
    | '+' :: r => (1, r)
    | '-' :: r => (-1, r)
    | r => (1, r)
  let intPart := sg.2.takeWhile asciiIsDigit
  let r2 := sg.2.drop intPart.length
  let mant : Option (ℚ × List Char) :=
    match r2 with
    | '.' :: r3 =>
      let frac := r3.takeWhile asciiIsDigit
      if intPart = [] ∧ frac = [] then none
      else some ((digitsVal intPart : ℚ) +
        (digitsVal frac : ℚ) / ((10:ℚ) ^ frac.length), r3.drop frac.length)
    | _ =>
      if intPart = [] then none
      else some ((digitsVal intPart : ℚ), r2)
  match mant with
  | none => none
  | some (m, r4) =>
    match r4 with
    | [] => some (sg.1 * m)
    | 'e' :: re => parseRustFloatExp (sg.1 * m) re
    | 'E' :: re => parseRustFloatExp (sg.1 * m) re
    | _ => none
where
  /-- The exponent tail: optional sign then one or more digits. -/
  parseRustFloatExp (m : ℚ) (re : List Char) : Option ℚ :=
    let se : Bool × List Char :=
      match re with
      | '+' :: r => (false, r)
      | '-' :: r => (true, r)
      | r => (false, r)
    if se.2 ≠ [] ∧ se.2.all asciiIsDigit then
      let e := digitsVal se.2
      some (if se.1 then m / ((10:ℚ) ^ e) else m * ((10:ℚ) ^ e))
    else none

/-- parse_coordinates from the source: trim, require the double-bracket
wrapping, split the interior on commas into exactly four parts, and parse
each trimmed part as a float. -/
def parse_coordinatesCl (coordsStr : List Char) : Option (ℚ × ℚ × ℚ × ℚ) :=
  let cs := trimCl coordsStr
  if hasPrefixCl "[[".data cs && hasSuffixCl "]]".data cs then
    let inner := (cs.take (cs.length - 2)).drop 2
    match splitOnSub [','] inner with
    | [p1, p2, p3, p4] =>
      match parseRustFloat (trimCl p1), parseRustFloat (trimCl p2),
          parseRustFloat (trimCl p3), parseRustFloat (trimCl p4) with
      | some a, some b, some c, some d => some (a, b, c, d)
      | _, _, _, _ => none
    | _ => none
  else none

/-- parse_coordinates on strings. -/
def parse_coordinates (coordsStr : String) : Option (ℚ × ℚ × ℚ × ℚ) :=
  parse_coordinatesCl coordsStr.data

/-- The message standing for the Rust slice-bound panic raised by the
payload slice when the closing det tag sits before the end of the opening
det tag. -/
def detSlicePanicMsg : String := "slice index starts after it ends in det payload"

/-- The text-collection predicate of parse_ocr_blocks: a following line
is collected while its trimmed form is neither empty nor the start of
another tag. -/
def collectsLine (l : List Char) : Bool :=
  !(hasPrefixCl "<|".data (trimCl l)) && !(trimCl l).isEmpty

/-- The line loop of parse_ocr_blocks, fueled by the line count.  The
index arithmetic of the source (i, j) is rendered by structural recursion
on the remaining lines; the force-page-break flag and the current image
index are threaded exactly as in the source, and the slice panic of the
payload extraction is surfaced as an error value. -/
def parseLoopFuel : Nat → List (List Char) → Bool → Nat →
    Except String (List TextBlock)
  | 0, _, _, _ => .ok []
  | _ + 1, [], _, _ => .ok []
  | fuel + 1, line :: rest, pending, imgIdx =>
    if hasPrefixCl "---IMAGE_INDEX:".data line then
      let idxStr := line.drop 15
      let idx' :=
        if hasSuffixCl "---".data idxStr then
          match parseUsizeCl (trimCl (idxStr.take (idxStr.length - 3))) with
          | some v => v
          | none => imgIdx
        else imgIdx
      parseLoopFuel fuel rest pending idx'
    else if trimCl line = "---PAGE_BREAK---".data then
      parseLoopFuel fuel rest true imgIdx
    else
      match findSub "<|det|>".data line, findSub "<|/det|>".data line with
      | some ds, some de =>
        if de < ds + 7 then .error detSlicePanicMsg
        else
          match parse_coordinatesCl ((line.take de).drop (ds + 7)) with
          | some coords =>
            let collected := (rest.takeWhile collectsLine).map trimCl
            let restAfter := rest.drop (rest.takeWhile collectsLine).length
            if collected ≠ [] then
              (parseLoopFuel fuel restAfter false imgIdx).map (fun bs =>
                { text := (List.intercalate [' '] collected).asString
                  x := coords.1
                  y := coords.2.1
                  width := coords.2.2.1 - coords.1
                  height := coords.2.2.2 - coords.2.1
                  force_page_break := pending
                  image_index := imgIdx } :: bs)
            else parseLoopFuel fuel restAfter pending imgIdx
          | none => parseLoopFuel fuel rest pending imgIdx
      | _, _ => parseLoopFuel fuel rest pending imgIdx

/-- parse_ocr_blocks from the source, on a whole markdown string. -/
def parse_ocr_blocks (markdown : String) : Except String (List TextBlock) :=
  parseLoopFuel (rustLinesCl markdown.data).length (rustLinesCl markdown.data) false 0

/-- Whether the lines after a det-tag line supply no text: the next line
is absent, blank, or another tag line. -/
def noFollowingText : List (List Char) → Prop
  | [] => True
  | l :: _ => trimCl l = [] ∨ hasPrefixCl "<|".data (trimCl l) = true

/-- C7 counterexample: an input line whose closing det tag precedes the
opening det tag makes the payload slice panic (surfaced here as the error
value), refuting the claim that no error is raised on any stream whose
det-tag payload is malformed. -/
theorem c7_det_slice_panic_counterexample :
    parse_ocr_blocks "<|/det|>x<|det|>" = .error detSlicePanicMsg := by rfl

/-- C7 amended: provided the first closing det tag of the line does not
end before the end of the first opening det tag (otherwise the payload
slice panics), a det-tag line whose closing tag is missing, whose payload
does not parse, or which is followed by no nonempty non-tag line,
produces no block and parsing continues with the remaining lines in an
unchanged state; no error is raised for that tag. -/
theorem c7_malformed_det_skipped (fuel : Nat) (line : List Char)
    (rest : List (List Char)) (pending : Bool) (imgIdx : Nat)
    (hni : hasPrefixCl "---IMAGE_INDEX:".data line = false)
    (hnp : trimCl line ≠ "---PAGE_BREAK---".data)
    (ho : ∃ ds, findSub "<|det|>".data line = some ds ∧
      (findSub "<|/det|>".data line = none ∨
        ∃ de, findSub "<|/det|>".data line = some de ∧ ds + 7 ≤ de ∧
          (parse_coordinatesCl ((line.take de).drop (ds + 7)) = none ∨
            noFollowingText rest))) :
    parseLoopFuel (fuel + 1) (line :: rest) pending imgIdx =
      parseLoopFuel fuel rest pending imgIdx := by
  obtain ⟨ds, hds, hrest⟩ := ho
  rw [parseLoopFuel]
  rw [if_neg (by simp [hni]), if_neg hnp, hds]
  rcases hrest with hde | ⟨de, hde, hge, hbad⟩
  · rw [hde]
  · rw [hde]
    dsimp only
    rw [if_neg (show ¬ de < ds + 7 by omega)]
    have htw : noFollowingText rest → rest.takeWhile collectsLine = [] := by
      intro hnt
      cases rest with
      | nil => rfl
      | cons l rs =>
        rw [List.takeWhile_cons]
        have hcl : collectsLine l = false := by
          unfold collectsLine
          unfold noFollowingText at hnt
          rcases hnt with h | h
          · simp [h]
          · simp [h]
        rw [hcl]
        rfl
    rcases hbad with hpc | hnt
    · rw [hpc]
    · cases hpc : parse_coordinatesCl ((line.take de).drop (ds + 7)) with
      | none => rfl
      | some coords =>
        rw [htw hnt]
        simp



/-- C7 witness: the skip theorem applied to a single line with an intact
tag pair and a malformed payload. -/
theorem c7_malformed_det_skipped_witness :
    hasPrefixCl "---IMAGE_INDEX:".data "<|det|>[[a,b]]<|/det|>".data = false ∧
    parseLoopFuel 1 ["<|det|>[[a,b]]<|/det|>".data] false 0 =
      parseLoopFuel 0 [] false 0 :=
  ⟨by decide,
    c7_malformed_det_skipped 0 "<|det|>[[a,b]]<|/det|>".data [] false 0 (by decide)
      (by decide) ⟨0, by decide, Or.inr ⟨14, by decide, by decide, Or.inl (by decide)⟩⟩⟩

/-! ## The two table back ends (build_ascii_table, render_html_table) -/

/-- A page draw command: a positioned text run or a straight line
segment.  render_html_table is modelled as the list of commands it sends
to the layer plus the returned cursor position. -/
inductive DrawCmd where
  | text (s : String) (size x y : ℚ)
  | line (x1 y1 x2 y2 : ℚ)
deriving Repr, DecidableEq

/-- Whether a draw command is a text run. -/
def isTextCmd : DrawCmd → Bool
  | .text _ _ _ _ => true
  | .line _ _ _ _ => false

/-- The column-width update loop shared verbatim by both table back
ends: position i of the width vector becomes its maximum with the byte
length of cell i of the row. -/
def updColWidths : List Nat → List String → List Nat
  | ws, [] => ws
  | [], _ :: _ => []
  | w :: ws, cell :: cells => max w (utf8Len cell.data) :: updColWidths ws cells

/-- The maximum cell count over the rows (map len then max, zero when
empty), shared by both back ends. -/
def maxColumnsOf (rows : List (List String)) : Nat :=
  (rows.map List.length).foldr max 0

/-- Padding every row with empty-string cells up to the widest row; the
comparison object of the unequal-cell-count tolerance claim. -/
def padRows (rows : List (List String)) : List (List String) :=
  rows.map (fun r => r ++ List.replicate (maxColumnsOf rows - r.length) "")

/-- One border line of the ASCII back end: a plus, then per column a
dash run of the column width plus two and a plus. -/
def borderLineCl (widths : List Nat) : List Char :=
  '+' :: (widths.map (fun w => List.replicate (w + 2) '-' ++ ['+'])).flatten

/-- One content line of the ASCII back end: a bar, then per column a
space, the cell (an absent trailing cell reads as empty), right padding
with spaces to the column width, a space, and a bar.  The format-width
padding of the source counts characters. -/
def asciiRowLineCl (widths : List Nat) (row : List String) : List Char :=
  '|' :: (widths.enum.map (fun iw =>
    let cell := ((row.get? iw.1).getD "").data
    ' ' :: (cell ++ List.replicate (iw.2 - cell.length) ' ') ++ [' ', '|'])).flatten

/-- build_ascii_table from the source. -/
def build_ascii_table (rows : List (List String)) : List String :=
  if rows.isEmpty then []
  else
    let maxColumns := maxColumnsOf rows
    if maxColumns = 0 then []
    else
      let colWidths := rows.foldl updColWidths (List.replicate maxColumns 0)
      (borderLineCl colWidths).asString ::
        (rows.map (fun row => [(asciiRowLineCl colWidths row).asString,
          (borderLineCl colWidths).asString])).flatten

/-- Truncation of a nonnegative rational to a machine integer (the
source casts f32 to usize; negative values saturate to zero). -/
def ratToUsize (q : ℚ) : Nat := (Rat.floor q).toNat

/-- The in-cell greedy wrap of render_html_table (character-count
estimate over byte lengths); identical loop shape to the plain wrap but
accumulating the drawn string directly. -/
def cellWrapLoop (maxChars : Nat) : List String → List Char → List (List Char)
  | [], [] => []
  | [], c :: cs => [c :: cs]
  | w :: ws, [] => cellWrapLoop maxChars ws w.data
  | w :: ws, c :: cs =>
    if utf8Len (c :: cs) + utf8Len w.data + 1 > maxChars then
      (c :: cs) :: cellWrapLoop maxChars ws w.data
    else cellWrapLoop maxChars ws ((c :: cs) ++ ' ' :: w.data)

/-- The line-count estimate of the first pass of render_html_table; its
accumulator counts a trailing space per word, exactly as the source
does. -/
def cellCountLines (maxChars : Nat) : List String → Nat → Nat → Nat
  | [], lines, _ => lines
  | w :: ws, lines, curLen =>
    if curLen + utf8Len w.data + 1 > maxChars ∧ curLen > 0 then
      cellCountLines maxChars ws (lines + 1) (utf8Len w.data)
    else cellCountLines maxChars ws lines (curLen + utf8Len w.data + 1)

/-- The character budget of a cell column: column width scaled by the
safety factor, divided by the average glyph width, floored at one, cast
to usize. -/
def cellMaxChars (colWidth avg : ℚ) : Nat :=
  ratToUsize (max ((colWidth * 0.85) / avg) 1)

/-- The per-row maximum wrapped line count of the first pass of
render_html_table. -/
def rowMaxLines (colWidthsMm : List ℚ) (avg : ℚ) : Nat → List String → Nat → Nat
  | _, [], acc => acc
  | colIdx, cell :: cells, acc =>
    if colIdx < colWidthsMm.length then
      let mc := cellMaxChars (colWidthsMm.getD colIdx 0) avg
      rowMaxLines colWidthsMm avg (colIdx + 1) cells
        (max acc (cellCountLines mc (splitWs cell) 1 0))
    else rowMaxLines colWidthsMm avg (colIdx + 1) cells acc

/-- The fixed cell padding of render_html_table, in page units. -/
def cellPaddingC : ℚ := 0.5

/-- The fixed vertical border width of render_html_table. -/
def borderWidthC : ℚ := 1

/-- The fixed per-line height of render_html_table cells. -/
def baseLineHeightC : ℚ := 5.5

/-- Points to page units. -/
def ptToMmC : ℚ := 0.352778

/-- The cell loop of one row of render_html_table: for each present cell
inside the column range, the wrapped text runs and the vertical
separator after the cell; the cursor cell x advances by content width,
padding and border.  Cells beyond the column range draw nothing. -/
def cellCmds (avg textCenterY fontSize currentY rh : ℚ) (colWidthsMm : List ℚ) :
    Nat → ℚ → List String → List DrawCmd
  | _, _, [] => []
  | colIdx, cellX, cell :: cells =>
    if colIdx < colWidthsMm.length then
      let colWidth := colWidthsMm.getD colIdx 0
      let mc := cellMaxChars colWidth avg
      let textLines := cellWrapLoop mc (splitWs cell) []
      let cellTextX := cellX + cellPaddingC
      let startLineY := currentY - cellPaddingC - textCenterY
      let textCmds := textLines.enum.map (fun ktl =>
        DrawCmd.text ktl.2.asString fontSize cellTextX
          (startLineY - baseLineHeightC * (ktl.1 : ℚ)))
      let cellX2 := cellX + colWidth + cellPaddingC * 2 + borderWidthC
      textCmds ++ DrawCmd.line cellX2 currentY cellX2 (currentY - rh) ::
        cellCmds avg textCenterY fontSize currentY rh colWidthsMm (colIdx + 1) cellX2 cells
    else cellCmds avg textCenterY fontSize currentY rh colWidthsMm (colIdx + 1) cellX cells

/-- The row loop of render_html_table: left border, cells with their
separators, then the bottom border after advancing the cursor by the row
height; returns the commands and the final cursor position. -/
def rowsCmds (avg textCenterY fontSize startX totalTableWidth : ℚ)
    (colWidthsMm : List ℚ) (rowHeights : List ℚ) :
    Nat → ℚ → List (List String) → List DrawCmd × ℚ
  | _, currentY, [] => ([], currentY)
  | rowIdx, currentY, row :: rest =>
    let rh := rowHeights.getD rowIdx baseLineHeightC
    let cmds1 := DrawCmd.line startX currentY startX (currentY - rh) ::
      cellCmds avg textCenterY fontSize currentY rh colWidthsMm 0 (startX + borderWidthC) row
    let y2 := currentY - rh
    let r := rowsCmds avg textCenterY fontSize startX totalTableWidth colWidthsMm rowHeights
      (rowIdx + 1) y2 rest
    (cmds1 ++ DrawCmd.line startX y2 (startX + totalTableWidth) y2 :: r.1, r.2)

/-- The total border width of render_html_table: one vertical line per
column boundary. -/
def htmlTotalBorderWidth (numCols : Nat) : ℚ := ((numCols : ℚ) + 1) * borderWidthC

/-- The total padding width of render_html_table: two paddings per
cell. -/
def htmlTotalPaddingWidth (numCols : Nat) : ℚ := (numCols : ℚ) * (cellPaddingC * 2)

/-- The physical content width per column of render_html_table:
proportional to the byte-length share of the column inside the available
width, with an even split when every column is empty. -/
def htmlColWidthsMm (colWidths : List Nat) (numCols : Nat) (maxWidth : ℚ) : List ℚ :=
  let availableWidth := max (maxWidth - htmlTotalBorderWidth numCols -
    htmlTotalPaddingWidth numCols) 10
  let totalChars : ℚ := (colWidths.map (fun w => (w : ℚ))).foldr (· + ·) 0
  colWidths.map (fun w =>
    if totalChars > 0 then ((w : ℚ) / totalChars) * availableWidth
    else availableWidth / (numCols : ℚ))

/-- The height of one row of render_html_table: line height times the
estimated wrapped line count of the tallest cell, plus padding. -/
def htmlRowHeight (colWidthsMm : List ℚ) (avg : ℚ) (row : List String) : ℚ :=
  baseLineHeightC * (rowMaxLines colWidthsMm avg 0 row 1 : ℚ) + cellPaddingC * 2

/-- render_html_table from the source: column widths proportional to the
longest cell per column inside the available width, precomputed row
heights from the wrapped line counts, then a top border and the row loop;
returns the draw commands and the cursor position below the table. -/
def render_html_table (rows : List (List String)) (startX startY maxWidth fontSize : ℚ) :
    List DrawCmd × ℚ :=
  if rows.isEmpty then ([], startY)
  else
    let numCols := maxColumnsOf rows
    if numCols = 0 then ([], startY)
    else
      let colWidths := rows.foldl updColWidths (List.replicate numCols 0)
      let avgCharWidth := fontSize * 0.5 * ptToMmC
      let colWidthsMm := htmlColWidthsMm colWidths numCols maxWidth
      let textCenterY := baseLineHeightC / 2 + fontSize * 0.1 * ptToMmC
      let rowHeights := rows.map (htmlRowHeight colWidthsMm avgCharWidth)
      let totalTableWidth := (colWidthsMm.foldr (· + ·) 0) +
        htmlTotalBorderWidth numCols + htmlTotalPaddingWidth numCols
      let r := rowsCmds avgCharWidth textCenterY fontSize startX totalTableWidth
        colWidthsMm rowHeights 0 startY rows
      (DrawCmd.line startX startY (startX + totalTableWidth) startY :: r.1, r.2 - 2)

/-! ## Supporting lemmas for the padding-equivalence claim -/

theorem updColWidths_replicate_empty (ws : List Nat) (k : Nat) :
    updColWidths ws (List.replicate k "") = ws := by
  induction ws generalizing k with
  | nil => cases k <;> rfl
  | cons w ws ih =>
    cases k with
    | zero => rfl
    | succ k =>
      rw [List.replicate_succ, updColWidths, ih]
      have : utf8Len ("" : String).data = 0 := rfl
      rw [this, Nat.max_zero]

theorem updColWidths_append_empty (r : List String) (ws : List Nat) (k : Nat) :
    updColWidths ws (r ++ List.replicate k "") = updColWidths ws r := by
  induction r generalizing ws with
  | nil =>
    rw [List.nil_append, updColWidths_replicate_empty]
    cases ws <;> rfl
  | cons cell cells ih =>
    cases ws with
    | nil => rfl
    | cons w ws => rw [List.cons_append, updColWidths, updColWidths, ih]

theorem foldl_updColWidths_pad (rows : List (List String)) (f : List String → Nat) :
    ∀ init : List Nat,
      (rows.map (fun r => r ++ List.replicate (f r) "")).foldl updColWidths init =
        rows.foldl updColWidths init := by
  induction rows with
  | nil => intro init; rfl
  | cons r rs ih =>
    intro init
    rw [List.map_cons, List.foldl_cons, List.foldl_cons, updColWidths_append_empty, ih]

theorem mem_le_maxColumnsOf (rows : List (List String)) :
    ∀ r ∈ rows, r.length ≤ maxColumnsOf rows := by
  induction rows with
  | nil => intro r hr; cases hr
  | cons a rs ih =>
    intro r hr
    rcases List.mem_cons.mp hr with h | h
    · subst h
      exact Nat.le_max_left _ _
    · exact le_trans (ih r h) (Nat.le_max_right _ _)

theorem maxColumnsOf_pad (rows : List (List String)) (m : Nat)
    (hle : ∀ r ∈ rows, r.length ≤ m) (hne : rows ≠ []) :
    maxColumnsOf (rows.map (fun r => r ++ List.replicate (m - r.length) "")) = m := by
  induction rows with
  | nil => exact absurd rfl hne
  | cons a rs ih =>
    have ha : a.length ≤ m := hle a (by simp)
    have hlen : (a ++ List.replicate (m - a.length) "").length = m := by
      rw [List.length_append, List.length_replicate]
      omega
    cases rs with
    | nil =>
      unfold maxColumnsOf
      simp [hlen]
    | cons b rs2 =>
      have hr := ih (fun r hr => hle r (List.mem_cons_of_mem _ hr)) (by simp)
      unfold maxColumnsOf at hr ⊢
      rw [List.map_cons, List.map_cons, List.foldr_cons, hlen, hr]
      omega

theorem cellCountLines_empty_word (mc : Nat) : cellCountLines mc (splitWs "") 1 0 = 1 := rfl

theorem rowMaxLines_replicate_empty (cw : List ℚ) (avg : ℚ) (k : Nat) :
    ∀ (colIdx acc : Nat), 1 ≤ acc →
      rowMaxLines cw avg colIdx (List.replicate k "") acc = acc := by
  induction k with
  | zero => intro colIdx acc _; rfl
  | succ k ih =>
    intro colIdx acc hacc
    rw [List.replicate_succ, rowMaxLines]
    split
    · dsimp only
      rw [cellCountLines_empty_word, max_eq_left hacc, ih _ _ hacc]
    · rw [ih _ _ hacc]

theorem rowMaxLines_append_empty (cw : List ℚ) (avg : ℚ) (r : List String) (k : Nat) :
    ∀ (colIdx acc : Nat), 1 ≤ acc →
      rowMaxLines cw avg colIdx (r ++ List.replicate k "") acc =
        rowMaxLines cw avg colIdx r acc := by
  induction r with
  | nil =>
    intro colIdx acc hacc
    rw [List.nil_append, rowMaxLines_replicate_empty cw avg k colIdx acc hacc]
    rfl
  | cons cell cells ih =>
    intro colIdx acc hacc
    rw [List.cons_append, rowMaxLines, rowMaxLines]
    split
    · exact ih _ _ (le_trans hacc (Nat.le_max_left _ _))
    · exact ih _ _ hacc

theorem cellCmds_replicate_empty_filter (avg tcy fs cy rh : ℚ) (cw : List ℚ) (k : Nat) :
    ∀ (colIdx : Nat) (cellX : ℚ),
      (cellCmds avg tcy fs cy rh cw colIdx cellX (List.replicate k "")).filter
        isTextCmd = [] := by
  induction k with
  | zero => intro colIdx cellX; rfl
  | succ k ih =>
    intro colIdx cellX
    rw [List.replicate_succ, cellCmds]
    split
    · dsimp only
      rw [show cellWrapLoop (cellMaxChars ((cw.getD colIdx 0)) avg)
        (splitWs "") [] = [] from rfl]
      simp only [List.enum_nil, List.map_nil, List.nil_append, List.filter_cons,
        isTextCmd, Bool.false_eq_true, if_false]
      exact ih _ _
    · exact ih _ _

theorem cellCmds_append_empty_filter (avg tcy fs cy rh : ℚ) (cw : List ℚ)
    (r : List String) (k : Nat) :
    ∀ (colIdx : Nat) (cellX : ℚ),
      (cellCmds avg tcy fs cy rh cw colIdx cellX (r ++ List.replicate k "")).filter
          isTextCmd =
        (cellCmds avg tcy fs cy rh cw colIdx cellX r).filter isTextCmd := by
  induction r with
  | nil =>
    intro colIdx cellX
    rw [List.nil_append, cellCmds_replicate_empty_filter]
    rfl
  | cons cell cells ih =>
    intro colIdx cellX
    rw [List.cons_append, cellCmds, cellCmds]
    split
    · dsimp only
      rw [List.filter_append, List.filter_append, List.filter_cons, List.filter_cons]
      simp only [isTextCmd, Bool.false_eq_true, if_false]
      rw [ih]
    · exact ih _ _

theorem rowsCmds_pad (avg tcy fs sx ttw : ℚ) (cw : List ℚ) (rhs : List ℚ)
    (rows : List (List String)) (f : List String → Nat) :
    ∀ (rowIdx : Nat) (currentY : ℚ),
      ((rowsCmds avg tcy fs sx ttw cw rhs rowIdx currentY
          (rows.map (fun r => r ++ List.replicate (f r) ""))).1.filter isTextCmd =
        (rowsCmds avg tcy fs sx ttw cw rhs rowIdx currentY rows).1.filter isTextCmd) ∧
      (rowsCmds avg tcy fs sx ttw cw rhs rowIdx currentY
          (rows.map (fun r => r ++ List.replicate (f r) ""))).2 =
        (rowsCmds avg tcy fs sx ttw cw rhs rowIdx currentY rows).2 := by
  induction rows with
  | nil => intro rowIdx currentY; exact ⟨rfl, rfl⟩
  | cons row rest ih =>
    intro rowIdx currentY
    rw [List.map_cons, rowsCmds, rowsCmds]
    have ihh := ih (rowIdx + 1) (currentY - rhs.getD rowIdx baseLineHeightC)
    constructor
    · simp only [List.filter_append, List.filter_cons]
      rw [show isTextCmd (DrawCmd.line sx currentY sx
        (currentY - rhs.getD rowIdx baseLineHeightC)) = false from rfl]
      rw [show isTextCmd (DrawCmd.line sx (currentY - rhs.getD rowIdx baseLineHeightC)
        (sx + ttw) (currentY - rhs.getD rowIdx baseLineHeightC)) = false from rfl]
      rw [cellCmds_append_empty_filter, ihh.1]
    · exact ihh.2

theorem getD_append_replicate_empty (row : List String) (k i : Nat) :
    ((row ++ List.replicate k "").get? i).getD "" = (row.get? i).getD "" := by
  induction row generalizing i with
  | nil =>
    rw [List.nil_append]
    induction k generalizing i with
    | zero => rfl
    | succ k ihk =>
      cases i with
      | zero => rfl
      | succ i => rw [List.replicate_succ]; exact ihk i
  | cons a row ih =>
    cases i with
    | zero => rfl
    | succ i => exact ih i

theorem asciiRowLineCl_pad (widths : List Nat) (row : List String) (k : Nat) :
    asciiRowLineCl widths (row ++ List.replicate k "") = asciiRowLineCl widths row := by
  unfold asciiRowLineCl
  congr 2
  apply List.map_congr_left
  intro iw _
  rw [getD_append_replicate_empty]

/-- C9 counterexample: the bordered back end does not render a short row
exactly as if padded: the padded form draws an extra vertical separator
after the absent trailing cell, so the two command lists differ on a
concrete two-row table whose second row is short. -/
theorem c9_html_short_row_counterexample :
    render_html_table [["A", "B"], ["C"]] 5 280 200 9 ≠
      render_html_table (padRows [["A", "B"], ["C"]]) 5 280 200 9 := by
  intro hcon
  have h1 : (render_html_table [["A", "B"], ["C"]] 5 280 200 9).1.length = 11 := by rfl
  have h2 : (render_html_table (padRows [["A", "B"], ["C"]]) 5 280 200 9).1.length = 12 :=
    by rfl
  rw [hcon, h2] at h1
  exact absurd h1 (by decide)

/-- C9 amended: the ASCII back end renders every row list exactly as if
short rows were padded with empty cells up to the widest row; the
bordered back end places the identical positioned text runs and returns
the identical final cursor position under padding, and differs only in
the vertical separator segments it omits after the last present cell of
a short row. -/
theorem c9_padding_equivalence :
    (∀ rows : List (List String), build_ascii_table rows =
      build_ascii_table (padRows rows)) ∧
    (∀ (rows : List (List String)) (sx sy mw fs : ℚ),
      ((render_html_table rows sx sy mw fs).1.filter isTextCmd =
        (render_html_table (padRows rows) sx sy mw fs).1.filter isTextCmd) ∧
      (render_html_table rows sx sy mw fs).2 =
        (render_html_table (padRows rows) sx sy mw fs).2) := by
  have hisEmpty : ∀ rows : List (List String),
      (padRows rows).isEmpty = rows.isEmpty := by
    intro rows
    cases rows <;> rfl
  have hcols : ∀ rows : List (List String), rows ≠ [] →
      maxColumnsOf (padRows rows) = maxColumnsOf rows :=
    fun rows hne => maxColumnsOf_pad rows _ (mem_le_maxColumnsOf rows) hne
  have hwid : ∀ (rows : List (List String)) (init : List Nat),
      (padRows rows).foldl updColWidths init = rows.foldl updColWidths init :=
    fun rows init => foldl_updColWidths_pad rows _ init
  constructor
  · intro rows
    match hrows : rows with
    | [] => rfl
    | r0 :: rs =>
      unfold build_ascii_table
      rw [hisEmpty, hcols _ (by simp)]
      by_cases hmc : maxColumnsOf (r0 :: rs) = 0
      · rw [if_pos hmc, if_pos hmc]
      · rw [if_neg hmc, if_neg hmc]
        simp only [List.isEmpty_cons, Bool.false_eq_true, if_false]
        rw [hwid]
        congr 1
        unfold padRows
        rw [List.map_map]
        apply congrArg
        apply List.map_congr_left
        intro row hrow
        simp only [Function.comp]
        rw [asciiRowLineCl_pad]
  · intro rows sx sy mw fs
    match hrows : rows with
    | [] => exact ⟨rfl, rfl⟩
    | r0 :: rs =>
      unfold render_html_table
      rw [hisEmpty, hcols _ (by simp)]
      dsimp only
      rw [hwid]
      by_cases hmc : maxColumnsOf (r0 :: rs) = 0
      · simp only [List.isEmpty_cons, Bool.false_eq_true, if_false, if_pos hmc]
        exact ⟨trivial, trivial⟩
      · simp only [List.isEmpty_cons, Bool.false_eq_true, if_false]
        rw [if_neg hmc, if_neg hmc]
        have hrh : (padRows (r0 :: rs)).map (htmlRowHeight
            (htmlColWidthsMm ((r0 :: rs).foldl updColWidths
              (List.replicate (maxColumnsOf (r0 :: rs)) 0))
              (maxColumnsOf (r0 :: rs)) mw) (fs * 0.5 * ptToMmC)) =
          (r0 :: rs).map (htmlRowHeight
            (htmlColWidthsMm ((r0 :: rs).foldl updColWidths
              (List.replicate (maxColumnsOf (r0 :: rs)) 0))
              (maxColumnsOf (r0 :: rs)) mw) (fs * 0.5 * ptToMmC)) := by
          unfold padRows
          rw [List.map_map]
          apply List.map_congr_left
          intro row hrow
          simp only [Function.comp]
          unfold htmlRowHeight
          rw [rowMaxLines_append_empty _ _ row _ 0 1 (le_refl 1)]
        rw [hrh]
        have hpadm := rowsCmds_pad (fs * 0.5 * ptToMmC)
          (baseLineHeightC / 2 + fs * 0.1 * ptToMmC) fs sx
          (((htmlColWidthsMm ((r0 :: rs).foldl updColWidths
              (List.replicate (maxColumnsOf (r0 :: rs)) 0))
              (maxColumnsOf (r0 :: rs)) mw).foldr (· + ·) 0) +
            htmlTotalBorderWidth (maxColumnsOf (r0 :: rs)) +
            htmlTotalPaddingWidth (maxColumnsOf (r0 :: rs)))
          (htmlColWidthsMm ((r0 :: rs).foldl updColWidths
            (List.replicate (maxColumnsOf (r0 :: rs)) 0))
            (maxColumnsOf (r0 :: rs)) mw)
          ((r0 :: rs).map (htmlRowHeight
            (htmlColWidthsMm ((r0 :: rs).foldl updColWidths
              (List.replicate (maxColumnsOf (r0 :: rs)) 0))
              (maxColumnsOf (r0 :: rs)) mw) (fs * 0.5 * ptToMmC)))
          (r0 :: rs) (fun r => maxColumnsOf (r0 :: rs) - r.length) 0 sy
        constructor
        · simp only [List.filter_cons, isTextCmd, Bool.false_eq_true, if_false]
          unfold padRows
          exact hpadm.1.symm
        · unfold padRows
          rw [hpadm.2]

/-! ## The two tag-cleaning profiles (clean_markdown, clean_markdown_for_plain)

Each regex replace_all of the source is compiled to a scanning function:
the lazy tag-pair patterns to a pair scanner, the whole-line anchored
patterns to a per-line rewrite (the replacement never touches the
newline characters), the sentinel patterns, whose trailing white-space
class can greedily absorb following blank lines up to a line boundary,
to an anchored scanner with explicit white-space extension, and the
newline collapsing to a run rewrite. -/

/-- First occurrence of closeP in rest that a lazy dot repetition can
reach: when dotAll is false the skipped span must be newline free. -/
def findClose (closeP : List Char) (dotAll : Bool) (rest : List Char) : Option Nat :=
  match findSub closeP rest with
  | some k => if dotAll || !(rest.take k).contains '\n' then some k else none
  | none => none

/-- Fueled scanner removing lazy open-close pairs (replace_all with the
empty string); both patterns of every use are nonempty. -/
def removePairsFuel (openP closeP : List Char) (dotAll : Bool) :
    Nat → List Char → List Char
  | 0, _ => []
  | _ + 1, [] => []
  | fuel + 1, c :: cs =>
    if hasPrefixCl openP (c :: cs) then
      match findClose closeP dotAll ((c :: cs).drop openP.length) with
      | some k =>
        removePairsFuel openP closeP dotAll fuel
          (((c :: cs).drop openP.length).drop (k + closeP.length))
      | none => c :: removePairsFuel openP closeP dotAll fuel cs
    else c :: removePairsFuel openP closeP dotAll fuel cs

/-- Entry point of the pair scanner. -/
def removePairs (openP closeP : List Char) (dotAll : Bool) (s : List Char) :
    List Char :=
  removePairsFuel openP closeP dotAll s.length s

/-- Blank a line that starts with the given literal (the whole-line
control-directive patterns). -/
def blankLinePre (lit : List Char) (line : List Char) : List Char :=
  if hasPrefixCl lit line then [] else line

/-- Blank a line matching the bracket-style control-tag pattern: an
opening angle-bar, one or more non-bar characters, a bar-closing pair,
then anything. -/
def blankAllTagsLine (line : List Char) : List Char :=
  match line with
  | '<' :: '|' :: r =>
    let a := r.takeWhile (· ≠ '|')
    if a ≠ [] && hasPrefixCl ['|', '>'] (r.drop a.length) then [] else line
  | _ => line

/-- Whether a line consists of one or more spaces or tabs only. -/
def isSpaceTabOnly (l : List Char) : Bool :=
  !l.isEmpty && l.all (fun c => c = ' ' || c = '\t')

/-- Blank a space-or-tab-only line (the empty-line pattern). -/
def blankSpaceTabLine (line : List Char) : List Char :=
  if isSpaceTabOnly line then [] else line

/-- The largest index inside the white-space run that a greedy trailing
white-space class can consume while still ending at a line boundary: the
position of the last newline of the run, the full run when it reaches
the end of the text, and zero as a never-taken fallback. -/
def wsExt (after : List Char) : Nat :=
  let run := after.takeWhile rustIsWhitespace
  if run.length = after.length then run.length
  else
    match (run.enum.filter (fun ic => ic.2 = '\n')).getLast? with
    | some ic => ic.1
    | none => 0

/-- Total match length of a whole-line anchored sentinel pattern at the
head of s: the line body per bodyLen, the rest of the line all white
space, then the greedy cross-line white-space extension. -/
def anchoredMatchLen (bodyLen : List Char → Option Nat) (s : List Char) :
    Option Nat :=
  let lineRest := s.takeWhile (· ≠ '\n')
  match bodyLen lineRest with
  | some bn =>
    if (lineRest.drop bn).all rustIsWhitespace then
      some (lineRest.length + wsExt (s.drop lineRest.length))
    else none
  | none => none

/-- Whether the scan position after consuming the first n characters of
s sits at a line start. -/
def atLineStartAfter (s : List Char) (n : Nat) : Bool :=
  match (s.take n).getLast? with
  | some c => c = '\n'
  | none => true

/-- Fueled scanner removing whole-line anchored sentinel matches; the
flag tracks whether the current position is a line start (the multi-line
caret). -/
def removeAnchoredFuel (bodyLen : List Char → Option Nat) :
    Nat → Bool → List Char → List Char
  | 0, _, _ => []
  | _ + 1, _, [] => []
  | fuel + 1, atStart, c :: cs =>
    if atStart then
      match anchoredMatchLen bodyLen (c :: cs) with
      | some n =>
        removeAnchoredFuel bodyLen fuel (atLineStartAfter (c :: cs) n)
          ((c :: cs).drop n)
      | none => c :: removeAnchoredFuel bodyLen fuel (c = '\n') cs
    else c :: removeAnchoredFuel bodyLen fuel (c = '\n') cs

/-- Entry point of the anchored scanner. -/
def removeAnchored (bodyLen : List Char → Option Nat) (s : List Char) : List Char :=
  removeAnchoredFuel bodyLen s.length true s

/-- Body of the page-break sentinel pattern: the fixed literal. -/
def pageBreakBody (lineRest : List Char) : Option Nat :=
  if hasPrefixCl "---PAGE_BREAK---".data lineRest then some 16 else none

/-- Body of the image-index sentinel pattern of the plain profile: the
literal, one or more digits, then three dashes. -/
def imageIdxPlainBody (lineRest : List Char) : Option Nat :=
  if hasPrefixCl "---IMAGE_INDEX:".data lineRest then
    let ds := (lineRest.drop 15).takeWhile asciiIsDigit
    if ds ≠ [] && hasPrefixCl "---".data (lineRest.drop (15 + ds.length)) then
      some (15 + ds.length + 3)
    else none
  else none

/-- The greedy in-line body of the image-index pattern of the
coordinate profile: the last three-dash occurrence whose in-line suffix
is all white space. -/
def lastDashesAllWs : List Char → Nat → Option Nat → Option Nat
  | [], _, best => best
  | c :: cs, i, best =>
    let best := if hasPrefixCl "---".data (c :: cs) && ((c :: cs).drop 3).all
        rustIsWhitespace then some i else best
    lastDashesAllWs cs (i + 1) best

/-- Body of the image-index sentinel pattern of the coordinate profile:
the literal, any in-line span, then three dashes chosen greedily. -/
def imageIdxCoordBody (lineRest : List Char) : Option Nat :=
  if hasPrefixCl "---IMAGE_INDEX:".data lineRest then
    match lastDashesAllWs (lineRest.drop 15) 0 none with
    | some i => some (15 + i + 3)
    | none => none
  else none

/-- Fueled rewrite collapsing every run of three or more newlines to
two. -/
def collapseNlFuel : Nat → List Char → List Char
  | 0, _ => []
  | _ + 1, [] => []
  | fuel + 1, c :: cs =>
    if c = '\n' then
      let run := cs.takeWhile (· = '\n')
      let n := run.length + 1
      (if n ≥ 3 then ['\n', '\n'] else List.replicate n '\n') ++
        collapseNlFuel fuel (cs.drop run.length)
    else c :: collapseNlFuel fuel cs

/-- Entry point of the newline collapser. -/
def collapseNl (s : List Char) : List Char := collapseNlFuel s.length s

/-- clean_markdown_for_plain from the source, on character lists: remove
det pairs, ref pairs, whole control-tag lines, the page-break and
image-index sentinels, blank the space-only lines, collapse newline
runs, and trim. -/
def cleanPlainCl (s : List Char) : List Char :=
  let s1 := removePairs "<|det|>".data "<|/det|>".data false s
  let s2 := removePairs "<|ref|>".data "<|/ref|>".data true s1
  let s3 := onLines blankAllTagsLine s2
  let s4 := removeAnchored pageBreakBody s3
  let s5 := removeAnchored imageIdxPlainBody s4
  let s6 := onLines blankSpaceTabLine s5
  let s7 := collapseNl s6
  trimCl s7

/-- clean_markdown_for_plain on strings. -/
def clean_markdown_for_plain (text : String) : String :=
  (cleanPlainCl text.data).asString

/-- clean_markdown (the preserve-coordinates profile) from the source:
remove ref pairs and the grounding, think and OCR directive lines, blank
the space-only lines, collapse newline runs, remove the page-break and
image-index sentinels, and trim; det tags are deliberately kept. -/
def cleanMarkdownCl (s : List Char) : List Char :=
  let s1 := removePairs "<|ref|>".data "<|/ref|>".data true s
  let s2 := onLines (blankLinePre "<|grounding|>".data) s1
  let s3 := onLines (blankLinePre "<|think|>".data) s2
  let s4 := onLines (blankLinePre "<|OCR|>".data) s3
  let s5 := onLines blankSpaceTabLine s4
  let s6 := collapseNl s5
  let s7 := removeAnchored pageBreakBody s6
  let s8 := removeAnchored imageIdxCoordBody s7
  trimCl s8

/-- clean_markdown on strings. -/
def clean_markdown (text : String) : String := (cleanMarkdownCl text.data).asString

/-! ## Occurrence lemmas and stage-identity lemmas for the cleaning claims -/

theorem hasPrefixCl_iff (p s : List Char) :
    hasPrefixCl p s = true ↔ ∃ t, s = p ++ t := by
  induction p generalizing s with
  | nil => simp [hasPrefixCl]
  | cons a p ih =>
    cases s with
    | nil =>
      simp only [hasPrefixCl]
      constructor
      · intro h; cases h
      · rintro ⟨t, ht⟩; cases ht
    | cons c cs =>
      simp only [hasPrefixCl, Bool.and_eq_true, decide_eq_true_eq, ih]
      constructor
      · rintro ⟨rfl, t, rfl⟩
        exact ⟨t, rfl⟩
      · rintro ⟨t, ht⟩
        injection ht with h1 h2
        exact ⟨h1.symm, t, h2⟩

theorem hasPrefixCl_trans {a b c : List Char} (h1 : hasPrefixCl a b = true)
    (h2 : hasPrefixCl b c = true) : hasPrefixCl a c = true := by
  rw [hasPrefixCl_iff] at *
  obtain ⟨t1, rfl⟩ := h1
  obtain ⟨t2, rfl⟩ := h2
  exact ⟨t1 ++ t2, by rw [List.append_assoc]⟩

theorem hasSub_cons (p : List Char) (c : Char) (cs : List Char) :
    hasSub p (c :: cs) = (hasPrefixCl p (c :: cs) || hasSub p cs) := by
  unfold hasSub
  rw [findSub]
  by_cases h : hasPrefixCl p (c :: cs) = true
  · simp [h]
  · rw [Bool.not_eq_true] at h
    simp [h]

theorem hasSub_iff_drop (p s : List Char) :
    hasSub p s = true ↔ ∃ n, hasPrefixCl p (s.drop n) = true := by
  induction s with
  | nil =>
    unfold hasSub
    rw [findSub]
    constructor
    · intro h
      split at h
      · exact ⟨0, by simpa using ‹hasPrefixCl p [] = true›⟩
      · cases h
    · rintro ⟨n, hn⟩
      rw [List.drop_nil] at hn
      simp [hn]
  | cons c cs ih =>
    rw [hasSub_cons, Bool.or_eq_true, ih]
    constructor
    · rintro (h | ⟨n, hn⟩)
      · exact ⟨0, h⟩
      · exact ⟨n + 1, hn⟩
    · rintro ⟨n, hn⟩
      cases n with
      | zero => exact Or.inl hn
      | succ n => exact Or.inr ⟨n, hn⟩

theorem hasSub_mono_pattern {p q s : List Char} (hpq : hasPrefixCl p q = true)
    (hq : hasSub q s = true) : hasSub p s = true := by
  rw [hasSub_iff_drop] at hq ⊢
  obtain ⟨n, hn⟩ := hq
  exact ⟨n, hasPrefixCl_trans hpq hn⟩

theorem hasSub_false_cons {p : List Char} {c : Char} {cs : List Char}
    (h : hasSub p (c :: cs) = false) :
    hasPrefixCl p (c :: cs) = false ∧ hasSub p cs = false := by
  rw [hasSub_cons, Bool.or_eq_false_iff] at h
  exact h

theorem hasPrefixCl_of_takeWhile {lit l : List Char} {q : Char → Bool}
    (h : hasPrefixCl lit (l.takeWhile q) = true) : hasPrefixCl lit l = true := by
  rw [hasPrefixCl_iff] at h ⊢
  obtain ⟨t, ht⟩ := h
  exact ⟨t ++ l.dropWhile q, by rw [← List.append_assoc, ← ht,
    List.takeWhile_append_dropWhile]⟩

theorem splitNl_ne_nil (s : List Char) : splitNl s ≠ [] := by
  cases s with
  | nil => simp [splitNl]
  | cons c cs =>
    rw [splitNl]
    split <;> simp

theorem joinNl_splitNl (s : List Char) : joinNl (splitNl s) = s := by
  induction s with
  | nil => rfl
  | cons c cs ih =>
    rw [splitNl]
    obtain ⟨h, t, hht⟩ : ∃ h t, splitNl cs = h :: t := by
      cases hsp : splitNl cs with
      | nil => exact absurd hsp (splitNl_ne_nil cs)
      | cons h t => exact ⟨h, t, rfl⟩
    rw [hht] at ih ⊢
    by_cases hc : c = '\n'
    · rw [if_pos hc, hc]
      exact congrArg (List.cons '\n') ih
    · rw [if_neg hc]
      simp only [List.headI, List.tail]
      cases t with
      | nil => exact congrArg (List.cons c) ih
      | cons t0 ts => exact congrArg (List.cons c) ih

theorem headI_splitNl (s : List Char) :
    (splitNl s).headI = s.takeWhile (· ≠ '\n') := by
  induction s with
  | nil => rfl
  | cons c cs ih =>
    rw [splitNl, List.takeWhile_cons]
    by_cases hc : c = '\n'
    · rw [if_pos hc]
      simp [hc]
    · rw [if_neg hc]
      simp only [List.headI]
      rw [show (decide ¬c = '\n') = true by simpa using hc]
      rw [← ih]
      rfl

theorem mem_splitNl_occurs (s : List Char) :
    ∀ l ∈ splitNl s, ∃ n, hasPrefixCl l (s.drop n) = true := by
  induction s with
  | nil =>
    intro l hl
    rw [show splitNl [] = [[]] from rfl, List.mem_singleton] at hl
    subst hl
    exact ⟨0, rfl⟩
  | cons c cs ih =>
    intro l hl
    rw [splitNl] at hl
    by_cases hc : c = '\n'
    · rw [if_pos hc] at hl
      rcases List.mem_cons.mp hl with h | h
      · subst h
        exact ⟨0, rfl⟩
      · obtain ⟨n, hn⟩ := ih l h
        exact ⟨n + 1, hn⟩
    · rw [if_neg hc] at hl
      rcases List.mem_cons.mp hl with h | h
      · subst h
        refine ⟨0, ?_⟩
        rw [List.drop_zero, headI_splitNl]
        rw [show hasPrefixCl (c :: List.takeWhile (fun x => decide ¬x = '\n') cs)
          (c :: cs) = hasPrefixCl (List.takeWhile (fun x => decide ¬x = '\n') cs) cs
          from by simp [hasPrefixCl]]
        rw [hasPrefixCl_iff]
        exact ⟨cs.dropWhile (fun x => decide ¬x = '\n'),
          (List.takeWhile_append_dropWhile _ _).symm⟩
      · have hmem : l ∈ splitNl cs := by
          cases hsp : splitNl cs with
          | nil => exact absurd hsp (splitNl_ne_nil cs)
          | cons h0 t0 =>
            rw [hsp] at h
            simp only [List.tail] at h
            exact List.mem_cons_of_mem h0 h
        obtain ⟨n, hn⟩ := ih l hmem
        exact ⟨n + 1, hn⟩

theorem onLines_id {f : List Char → List Char} {s : List Char}
    (hf : ∀ l ∈ splitNl s, f l = l) : onLines f s = s := by
  unfold onLines
  rw [List.map_congr_left hf, List.map_id', joinNl_splitNl]

theorem removePairsFuel_id (openP closeP : List Char) (d : Bool) :
    ∀ (fuel : Nat) (s : List Char), s.length ≤ fuel → hasSub openP s = false →
      removePairsFuel openP closeP d fuel s = s := by
  intro fuel
  induction fuel with
  | zero =>
    intro s hs _
    rw [Nat.le_zero] at hs
    rw [List.length_eq_zero] at hs
    subst hs
    rfl
  | succ fuel ih =>
    intro s hs hsub
    cases s with
    | nil => rfl
    | cons c cs =>
      obtain ⟨hpre, hrest⟩ := hasSub_false_cons hsub
      rw [removePairsFuel, if_neg (by simp [hpre])]
      rw [ih cs (by simpa using Nat.lt_succ_iff.mp (Nat.lt_of_lt_of_le
        (Nat.lt_succ_self _) (by simpa using hs))) hrest]

theorem removeAnchoredFuel_id (bodyLen : List Char → Option Nat) (lit : List Char)
    (H : ∀ lr n, bodyLen lr = some n → hasPrefixCl lit lr = true) :
    ∀ (fuel : Nat) (flag : Bool) (s : List Char), s.length ≤ fuel →
      hasSub lit s = false → removeAnchoredFuel bodyLen fuel flag s = s := by
  intro fuel
  induction fuel with
  | zero =>
    intro flag s hs _
    rw [Nat.le_zero, List.length_eq_zero] at hs
    subst hs
    rfl
  | succ fuel ih =>
    intro flag s hs hsub
    cases s with
    | nil => rfl
    | cons c cs =>
      obtain ⟨hpre, hrest⟩ := hasSub_false_cons hsub
      have hlen : cs.length ≤ fuel := by simpa using hs
      have hbody : bodyLen ((c :: cs).takeWhile (· ≠ '\n')) = none := by
        cases hb : bodyLen ((c :: cs).takeWhile (· ≠ '\n')) with
        | none => rfl
        | some n =>
          have := hasPrefixCl_of_takeWhile (H _ n hb)
          rw [this] at hpre
          cases hpre
      have hml : anchoredMatchLen bodyLen (c :: cs) = none := by
        unfold anchoredMatchLen
        dsimp only
        rw [hbody]
      rw [removeAnchoredFuel]
      by_cases hflag : flag = true
      · rw [if_pos hflag, hml, ih _ cs hlen hrest]
      · rw [if_neg hflag, ih _ cs hlen hrest]

theorem collapseNlFuel_nil (fuel : Nat) : collapseNlFuel fuel [] = [] := by
  cases fuel <;> rfl

theorem collapseNlFuel_id :
    ∀ (fuel : Nat) (s : List Char), s.length ≤ fuel →
      hasSub ['\n', '\n', '\n'] s = false → collapseNlFuel fuel s = s := by
  intro fuel
  induction fuel with
  | zero =>
    intro s hs _
    rw [Nat.le_zero, List.length_eq_zero] at hs
    subst hs
    rfl
  | succ fuel ih =>
    intro s hs hsub
    cases s with
    | nil => rfl
    | cons c cs =>
      obtain ⟨hpre, hrest⟩ := hasSub_false_cons hsub
      have hlen : cs.length ≤ fuel := by simpa using hs
      rw [collapseNlFuel]
      by_cases hc : c = '\n'
      · rw [if_pos hc]
        subst hc
        cases cs with
        | nil =>
          show ['\n'] ++ collapseNlFuel fuel [] = ['\n']
          rw [collapseNlFuel_nil]
          rfl
        | cons d ds =>
          by_cases hd : d = '\n'
          · subst hd
            cases ds with
            | nil =>
              show ['\n', '\n'] ++ collapseNlFuel fuel [] = ['\n', '\n']
              rw [collapseNlFuel_nil]
              rfl
            | cons e es =>
              by_cases he : e = '\n'
              · subst he
                exfalso
                have : hasPrefixCl ['\n', '\n', '\n']
                    ('\n' :: '\n' :: '\n' :: es) = true := by
                  simp [hasPrefixCl]
                rw [this] at hpre
                cases hpre
              · have htw : List.takeWhile (fun x => decide (x = '\n'))
                    ('\n' :: e :: es) = ['\n'] := by
                  rw [List.takeWhile_cons, List.takeWhile_cons]
                  simp [he]
                dsimp only
                rw [htw]
                simp only [List.length_cons, List.length_nil, Nat.zero_add]
                rw [if_neg (by omega)]
                rw [show List.replicate (1 + 1) '\n' = ['\n', '\n'] from rfl]
                rw [show List.drop 1 ('\n' :: e :: es) = e :: es from rfl]
                rw [ih (e :: es) (by simp at hlen ⊢; omega)
                  (hasSub_false_cons hrest).2]
                rfl
          · have htw : List.takeWhile (fun x => decide (x = '\n')) (d :: ds) = [] := by
              rw [List.takeWhile_cons]
              simp [hd]
            dsimp only
            rw [htw]
            simp only [List.length_nil]
            rw [if_neg (by omega)]
            rw [show List.replicate (0 + 1) '\n' = ['\n'] from rfl]
            rw [show List.drop 0 (d :: ds) = d :: ds from rfl]
            rw [ih (d :: ds) hlen hrest]
            rfl
      · rw [if_neg hc, ih cs hlen hrest]

theorem blankAllTagsLine_id {l : List Char}
    (h : hasPrefixCl ['<', '|'] l = false) : blankAllTagsLine l = l := by
  match l with
  | [] => rfl
  | [c] =>
    unfold blankAllTagsLine
    split
    · rename_i heq
      cases heq
    · rfl
  | '<' :: '|' :: r =>
    exfalso
    have : hasPrefixCl ['<', '|'] ('<' :: '|' :: r) = true := by simp [hasPrefixCl]
    rw [this] at h
    cases h
  | c1 :: c2 :: r =>
    unfold blankAllTagsLine
    split
    · rename_i heq
      injection heq with e1 e2
      injection e2 with e2 _
      subst e1
      subst e2
      have : hasPrefixCl ['<', '|'] ('<' :: '|' :: r) = true := by simp [hasPrefixCl]
      rw [this] at h
      cases h
    · rfl

/-- C8 counterexample: the plain cleaning profile is not idempotent: on
the input consisting of a space, a control tag and a letter, one
application only trims the space, which exposes the control tag at a
line start, and the second application deletes the line. -/
theorem c8_clean_not_idempotent_counterexample :
    clean_markdown_for_plain (clean_markdown_for_plain " <|x|>y") ≠
      clean_markdown_for_plain " <|x|>y" := by decide

/-- The identity of the plain cleaning profile on already-clean inputs:
no control-tag opener, no sentinel literals, no space-or-tab-only lines,
no triple-newline run, and no surrounding white space. -/
theorem cleanPlainCl_id (s : List Char)
    (h1 : hasSub ['<', '|'] s = false)
    (h2 : hasSub "---PAGE_BREAK---".data s = false)
    (h3 : hasSub "---IMAGE_INDEX:".data s = false)
    (h4 : ∀ l ∈ splitNl s, isSpaceTabOnly l = false)
    (h5 : hasSub ['\n', '\n', '\n'] s = false)
    (h6 : trimCl s = s) :
    cleanPlainCl s = s := by
  have hdet : hasSub "<|det|>".data s = false := by
    cases hx : hasSub "<|det|>".data s with
    | false => rfl
    | true =>
      rw [hasSub_mono_pattern (by rfl) hx] at h1
      cases h1
  have href : hasSub "<|ref|>".data s = false := by
    cases hx : hasSub "<|ref|>".data s with
    | false => rfl
    | true =>
      rw [hasSub_mono_pattern (by rfl) hx] at h1
      cases h1
  unfold cleanPlainCl
  dsimp only
  unfold removePairs
  rw [removePairsFuel_id _ _ _ _ s (le_refl _) hdet]
  rw [removePairsFuel_id _ _ _ _ s (le_refl _) href]
  rw [onLines_id (f := blankAllTagsLine) (fun l hl => by
    apply blankAllTagsLine_id
    cases hp : hasPrefixCl ['<', '|'] l with
    | false => rfl
    | true =>
      exfalso
      obtain ⟨n, hn⟩ := mem_splitNl_occurs s l hl
      have : hasSub ['<', '|'] s = true := by
        rw [hasSub_iff_drop]
        exact ⟨n, hasPrefixCl_trans hp hn⟩
      rw [this] at h1
      cases h1)]
  unfold removeAnchored
  rw [removeAnchoredFuel_id _ "---PAGE_BREAK---".data
    (fun lr n hb => by
      unfold pageBreakBody at hb
      split at hb
      · assumption
      · cases hb)
    _ _ s (le_refl _) h2]
  rw [removeAnchoredFuel_id _ "---IMAGE_INDEX:".data
    (fun lr n hb => by
      unfold imageIdxPlainBody at hb
      split at hb
      · assumption
      · cases hb)
    _ _ s (le_refl _) h3]
  rw [onLines_id (f := blankSpaceTabLine) (fun l hl => by
    unfold blankSpaceTabLine
    rw [h4 l hl]
    rfl)]
  unfold collapseNl
  rw [collapseNlFuel_id _ s (le_refl _) h5]
  exact h6

/-- C8 amended: the plain cleaning profile is not idempotent in general
(see the counterexample: an earlier deletion or the final trim can
expose a new control-tag or sentinel match for the second pass); it is
idempotent on every input already in cleaned form, that is, with no
control-tag opener, no page-break or image-index sentinel text, no
space-or-tab-only lines, no runs of three or more newlines, and no
leading or trailing white space; on that domain it is the identity. -/
theorem c8_clean_idempotent_amended (s : String)
    (h1 : hasSub ['<', '|'] s.data = false)
    (h2 : hasSub "---PAGE_BREAK---".data s.data = false)
    (h3 : hasSub "---IMAGE_INDEX:".data s.data = false)
    (h4 : ∀ l ∈ splitNl s.data, isSpaceTabOnly l = false)
    (h5 : hasSub ['\n', '\n', '\n'] s.data = false)
    (h6 : trimCl s.data = s.data) :
    clean_markdown_for_plain (clean_markdown_for_plain s) =
      clean_markdown_for_plain s := by
  have hid : cleanPlainCl s.data = s.data := cleanPlainCl_id s.data h1 h2 h3 h4 h5 h6
  have h0 : clean_markdown_for_plain s = s := congrArg List.asString hid
  rw [h0]
  exact h0

/-- C8 witness: the amended idempotence theorem applied to a concrete
clean input. -/
theorem c8_clean_idempotent_amended_witness :
    (hasSub ['<', '|'] "hello  world\nsecond line".data = false ∧
      trimCl "hello  world\nsecond line".data = "hello  world\nsecond line".data) ∧
    clean_markdown_for_plain (clean_markdown_for_plain "hello  world\nsecond line") =
      clean_markdown_for_plain "hello  world\nsecond line" :=
  ⟨⟨by decide, by decide⟩,
    c8_clean_idempotent_amended "hello  world\nsecond line" (by decide) (by decide)
      (by decide) (by decide) (by decide) (by decide)⟩

/-! ## Coordinate-mode layout (convert_with_coordinates): pagination model

The model follows the block loop of convert_with_coordinates and records,
for every sorted block, the page index on which its first draw command is
issued (none when nothing is drawn for the block).  Geometry is exact
rational arithmetic; the float constants of the source appear as their
exact decimal values. -/

/-- The stable comparator of the block sort: by image index, then by the
vertical position (the partial_cmp of two ordinary numbers). -/
def blockLe (a b : TextBlock) : Bool :=
  if a.image_index < b.image_index then true
  else if b.image_index < a.image_index then false
  else decide (a.y ≤ b.y)

/-- Insert a block into an already sorted list, before the first element
it compares less-or-equal to; folded from the right this is a stable
sort, agreeing with the stable sort_by of the source. -/
def insertBlock (a : TextBlock) : List TextBlock → List TextBlock
  | [] => [a]
  | b :: bs => if blockLe a b then a :: b :: bs else b :: insertBlock a bs

/-- Stable sort of the block list (image index, then y). -/
def sortBlocks : List TextBlock → List TextBlock
  | [] => []
  | a :: rest => insertBlock a (sortBlocks rest)

/-- The mutable layout state threaded through the block loop. -/
structure CoordState where
  page : Nat
  pageStartY : ℚ
  lastYLeft : ℚ
  lastYRight : ℚ
  prevBlockY : ℚ
  forceNewPage : Bool
deriving Repr

/-- The state of the inner word-wrap loops: current page, logical page
top, cursor line position and accumulated current line. -/
structure WrapSt where
  page : Nat
  pageStartY : ℚ
  lineY : ℚ
  cur : List Char
deriving Repr

/-- The shared word-wrap loop of the coordinate engine (both the list
item body wrap and the long-text wrap): flush when the byte estimate
overflows, step the line cursor down, and open a new page with the
logical top reset to the block position when the cursor passes the
margin (the fresh cursor is page height minus margin minus ten). -/
def coordWrap (mc : Nat) (step bym : ℚ) : List (List Char) → WrapSt → WrapSt
  | [], st => st
  | w :: ws, st =>
    let st1 :=
      if mc < utf8Len st.cur + utf8Len w + 1 ∧ st.cur ≠ [] then
        let ly := st.lineY - step
        if ly < 5 then WrapSt.mk (st.page + 1) bym 282 []
        else WrapSt.mk st.page st.pageStartY ly []
      else st
    coordWrap mc step bym ws
      (WrapSt.mk st1.page st1.pageStartY st1.lineY
        (if st1.cur = [] then w else st1.cur ++ ' ' :: w))

/-- The per-item loop of the list branch: strip the marker, wrap the
body from the item cursor, record the column cursor after the final
drawn line, and advance the item cursor by a line step plus one. -/
def listLoop (mc : Nat) (base bym : ℚ) :
    List String → ℚ → Nat → ℚ → ℚ → Nat × ℚ × ℚ
  | [], _, pg, psy, col => (pg, psy, col)
  | item :: rest, iy, pg, psy, col =>
    let fin := coordWrap mc (base * (35/100)) bym
      (splitWsCl (strip_leading_marker item).data) (WrapSt.mk pg psy iy [])
    let col2 := if fin.cur = [] then col else fin.lineY - base * (35/100)
    let iy2 := if fin.cur = [] then iy else fin.lineY
    listLoop mc base bym rest (iy2 - (base * (35/100) + 1)) fin.page fin.pageStartY col2

/-- The per-block text pipeline of the coordinate engine: clean, parse
the header marker, and strip html tags unless the raw block text
contains a table tag (case-insensitively). -/
def processedTL (b : TextBlock) : String × Nat :=
  let r := parse_markdown_headers (clean_markdown b.text)
  if hasSubCI "<table>".data b.text.data = true then r
  else ((parse_html_tags r.1).1, r.2)

/-- The processed text of a block (what the branches render). -/
def processedText (b : TextBlock) : String := (processedTL b).1

/-- The parsed header level of a block. -/
def headerLvl (b : TextBlock) : Nat := (processedTL b).2

/-- The new-page trigger evaluated at the top of the block loop: a
pending or explicit page-break flag, or a backward jump of the vertical
position by more than fifty below a previous position above one
hundred. -/
def forceFlag (st : CoordState) (b : TextBlock) : Bool :=
  st.forceNewPage || b.force_page_break ||
    (decide (st.prevBlockY > 100) && decide (b.y < st.prevBlockY - 50))

/-- The transformed vertical position of a block (scale one fifth). -/
def blockYmm (b : TextBlock) : ℚ := b.y * (1/5)

/-- Apply the forced page break: fresh page, logical top and column
cursors reset. -/
def afterForce (st : CoordState) (b : TextBlock) : CoordState :=
  if forceFlag st b = true then
    CoordState.mk (st.page + 1) 0 0 0 st.prevBlockY st.forceNewPage
  else st

/-- Apply the overflow page break: fires when the transformed position
exceeds the logical top by more than the usable height. -/
def afterOverflow (st : CoordState) (b : TextBlock) : CoordState :=
  if blockYmm b - st.pageStartY > 287 then
    CoordState.mk (st.page + 1) 0 0 0 st.prevBlockY st.forceNewPage
  else st

/-- The state in force when the block starts drawing. -/
def entrySt (st : CoordState) (b : TextBlock) : CoordState :=
  afterOverflow (afterForce st b) b

/-- The page on which the block starts drawing. -/
def entryPage (st : CoordState) (b : TextBlock) : Nat := (entrySt st b).page

/-- The end-of-iteration state bookkeeping shared by every non-skipped
branch: record the block position and clear the pending break flag. -/
def finishBlock (b : TextBlock) (st : CoordState) : CoordState :=
  CoordState.mk st.page st.pageStartY st.lastYLeft st.lastYRight b.y false

/-- Write the column cursor of the column selected by the x position. -/
def setCol (isLeft : Bool) (v : ℚ) (st : CoordState) : CoordState :=
  if isLeft then
    CoordState.mk st.page st.pageStartY v st.lastYRight st.prevBlockY st.forceNewPage
  else
    CoordState.mk st.page st.pageStartY st.lastYLeft v st.prevBlockY st.forceNewPage

/-- Replace the page counter and logical top (after an inner wrap that
may have opened pages). -/
def withPaging (pg : Nat) (psy : ℚ) (st : CoordState) : CoordState :=
  CoordState.mk pg psy st.lastYLeft st.lastYRight st.prevBlockY st.forceNewPage

/-- The clamped horizontal position of a block. -/
def xMmOf (b : TextBlock) : ℚ := min (b.x * (1/5) + 5) 200

/-- The column selector: left column when the horizontal position is
below the ninety-five millimetre threshold. -/
def isLeftOf (b : TextBlock) : Bool := decide (xMmOf b < 95)

/-- The base font size: half the scaled block height clamped to six
through ten. -/
def baseFontOf (b : TextBlock) : ℚ := min (max (b.height * (1/5) * (1/2)) 6) 10

/-- The rendering font size: the base size scaled up and capped for
header levels one to three. -/
def fontSizeOf (b : TextBlock) : ℚ :=
  if 0 < headerLvl b then
    match headerLvl b with
    | 1 => min (baseFontOf b * 2) 18
    | 2 => min (baseFontOf b * (3/2)) 14
    | 3 => min (baseFontOf b * (13/10)) 12
    | _ => baseFontOf b
  else baseFontOf b

/-- The minimum same-column spacing derived from the base font size. -/
def minSpOf (b : TextBlock) : ℚ := max (baseFontOf b * (3528/10000) * (3/2)) (5/2)

/-- The rendered block width: the scaled OCR width clamped below by
twenty-five, by the room to the right margin, and by the column
maximum. -/
def blockWOf (b : TextBlock) : ℚ :=
  min (min (max (b.width * (1/5)) 25) (max (210 - 5 - xMmOf b) 20)) 95

/-- The estimated average character width in millimetres. -/
def avgCWOf (b : TextBlock) : ℚ := fontSizeOf b * (1/2) * (352778/1000000)

/-- The wrap limit in bytes: block width over character width truncated
to an integer, at least fifteen (sixty under a degenerate zero character
width). -/
def maxCharsOf (b : TextBlock) : Nat :=
  if 0 < avgCWOf b then max (ratToUsize (blockWOf b / avgCWOf b)) 15 else 60

/-- The vertical cursor before the same-column spacing adjustment. -/
def yMm0Of (st2 : CoordState) (b : TextBlock) : ℚ :=
  max (297 - 5 - (blockYmm b - st2.pageStartY)) 5

/-- The vertical cursor of the block after the same-column minimum
spacing adjustment. -/
def yMmOf (st2 : CoordState) (b : TextBlock) : ℚ :=
  if isLeftOf b then
    if 0 < st2.lastYLeft ∧ st2.lastYLeft - yMm0Of st2 b < minSpOf b then
      st2.lastYLeft - minSpOf b
    else yMm0Of st2 b
  else
    if 0 < st2.lastYRight ∧ st2.lastYRight - yMm0Of st2 b < minSpOf b then
      st2.lastYRight - minSpOf b
    else yMm0Of st2 b

/-- One iteration of the block loop of convert_with_coordinates,
returning the page of the block's first draw (none when nothing is
drawn: empty processed text, a table with no parsed rows, an empty item
list, or a wrap with no words) and the updated state. -/
def processBlock (st : CoordState) (b : TextBlock) : Option Nat × CoordState :=
  let text := processedText b
  if text.data = [] then
    (none, CoordState.mk st.page st.pageStartY st.lastYLeft st.lastYRight b.y
      (forceFlag st b))
  else
    let st2 := entrySt st b
    let yMm := yMmOf st2 b
    if hasSubCI "<table>".data text.data = true then
      let rows := parse_table_html text
      if rows = [] then (none, finishBlock b st2)
      else
        let finalY := (render_html_table rows (xMmOf b) yMm (blockWOf b) 8).2
        (some st2.page, finishBlock b (setCol (isLeftOf b) finalY st2))
    else if is_list_item b.text = true then
      let items := split_list_items text
      let col0 := if isLeftOf b then st2.lastYLeft else st2.lastYRight
      let r := listLoop (maxCharsOf b) (baseFontOf b) (blockYmm b) items yMm
        st2.page st2.pageStartY col0
      (if items = [] then none else some st2.page,
        finishBlock b (setCol (isLeftOf b) r.2.2 (withPaging r.1 r.2.1 st2)))
    else if maxCharsOf b < utf8Len text.data then
      let fin := coordWrap (maxCharsOf b) (fontSizeOf b * (35/100)) (blockYmm b)
        (splitWsCl text.data) (WrapSt.mk st2.page st2.pageStartY yMm [])
      if fin.cur = [] then
        (none, finishBlock b (withPaging fin.page fin.pageStartY st2))
      else
        (some st2.page,
          finishBlock b (setCol (isLeftOf b) (fin.lineY - fontSizeOf b * (35/100))
            (withPaging fin.page fin.pageStartY st2)))
    else
      (some st2.page,
        finishBlock b (setCol (isLeftOf b) (yMm - fontSizeOf b * (35/100)) st2))

/-- Run the block loop over a sorted block list, collecting each block's
placement page. -/
def layoutRun : CoordState → List TextBlock → List (Option Nat) × CoordState
  | st, [] => ([], st)
  | st, b :: bs =>
    let r := processBlock st b
    let rest := layoutRun r.2 bs
    (r.1 :: rest.1, rest.2)

/-- The initial layout state: first page, zero logical top and cursors,
no pending break. -/
def initState : CoordState := CoordState.mk 0 0 0 0 0 false

/-- The placement pages of convert_with_coordinates: sort the parsed
blocks, then run the block loop. -/
def convert_with_coordinates_pages (blocks : List TextBlock) : List (Option Nat) :=
  (layoutRun initState (sortBlocks blocks)).1

/-! ## Pagination lemmas -/

theorem finishBlock_page (b : TextBlock) (st : CoordState) :
    (finishBlock b st).page = st.page := rfl

theorem finishBlock_prev (b : TextBlock) (st : CoordState) :
    (finishBlock b st).prevBlockY = b.y := rfl

theorem finishBlock_force (b : TextBlock) (st : CoordState) :
    (finishBlock b st).forceNewPage = false := rfl

theorem setCol_page (l : Bool) (v : ℚ) (st : CoordState) :
    (setCol l v st).page = st.page := by
  unfold setCol
  cases l <;> rfl

theorem withPaging_page (pg : Nat) (psy : ℚ) (st : CoordState) :
    (withPaging pg psy st).page = pg := rfl

theorem coordWrap_page_le (mc : Nat) (step bym : ℚ) :
    ∀ (ws : List (List Char)) (st : WrapSt),
      st.page ≤ (coordWrap mc step bym ws st).page := by
  intro ws
  induction ws with
  | nil => intro st; exact le_refl _
  | cons w ws ih =>
    intro st
    rw [coordWrap]
    dsimp only
    refine le_trans ?_ (ih _)
    split
    · split
      · exact Nat.le_succ _
      · exact le_refl _
    · exact le_refl _

theorem coordWrap_cur_ne (mc : Nat) (step bym : ℚ) :
    ∀ (ws : List (List Char)) (st : WrapSt), (∀ w ∈ ws, w ≠ []) →
      (ws = [] → st.cur ≠ []) → (coordWrap mc step bym ws st).cur ≠ [] := by
  intro ws
  induction ws with
  | nil =>
    intro st _ h
    exact h rfl
  | cons w ws ih =>
    intro st hall _
    rw [coordWrap]
    dsimp only
    apply ih
    · intro v hv
      exact hall v (List.mem_cons_of_mem w hv)
    · intro _
      dsimp only
      have key : ∀ (l : List Char), (if l = [] then w else l ++ ' ' :: w) ≠ [] := by
        intro l
        split
        · exact hall w (List.mem_cons_self w ws)
        · simp
      exact key _

theorem listLoop_page_le (mc : Nat) (base bym : ℚ) :
    ∀ (items : List String) (iy : ℚ) (pg : Nat) (psy col : ℚ),
      pg ≤ (listLoop mc base bym items iy pg psy col).1 := by
  intro items
  induction items with
  | nil => intro iy pg psy col; exact le_refl _
  | cons item rest ih =>
    intro iy pg psy col
    rw [listLoop]
    exact le_trans
      (coordWrap_page_le mc (base * (35/100)) bym
        (splitWsCl (strip_leading_marker item).data) (WrapSt.mk pg psy iy []))
      (ih _ _ _ _)

theorem splitWsFuel_ne_nil :
    ∀ (fuel : Nat) (s : List Char), ∀ w ∈ splitWsFuel fuel s, w ≠ [] := by
  intro fuel
  induction fuel with
  | zero =>
    intro s w hw
    simp [splitWsFuel] at hw
  | succ fuel ih =>
    intro s w hw
    cases s with
    | nil => simp [splitWsFuel] at hw
    | cons c cs =>
      rw [splitWsFuel] at hw
      by_cases hc : rustIsWhitespace c = true
      · rw [if_pos hc] at hw
        exact ih cs w hw
      · rw [if_neg hc] at hw
        rcases List.mem_cons.mp hw with h | h
        · subst h
          simp [List.takeWhile_cons, hc]
        · exact ih _ w h

theorem mem_splitWsCl_ne_nil (s : List Char) : ∀ w ∈ splitWsCl s, w ≠ [] :=
  splitWsFuel_ne_nil s.length s

theorem afterForce_page_ge (st : CoordState) (b : TextBlock) :
    st.page ≤ (afterForce st b).page := by
  unfold afterForce
  split
  · exact Nat.le_succ _
  · exact le_refl _

theorem afterForce_page_force (st : CoordState) (b : TextBlock)
    (h : forceFlag st b = true) : (afterForce st b).page = st.page + 1 := by
  unfold afterForce
  rw [if_pos h]

theorem afterOverflow_page_ge (st : CoordState) (b : TextBlock) :
    st.page ≤ (afterOverflow st b).page := by
  unfold afterOverflow
  split
  · exact Nat.le_succ _
  · exact le_refl _

theorem entryPage_ge (st : CoordState) (b : TextBlock) :
    st.page ≤ entryPage st b :=
  le_trans (afterForce_page_ge st b) (afterOverflow_page_ge (afterForce st b) b)

theorem entryPage_force (st : CoordState) (b : TextBlock)
    (h : forceFlag st b = true) : st.page + 1 ≤ entryPage st b := by
  have h1 := afterOverflow_page_ge (afterForce st b) b
  rw [afterForce_page_force st b h] at h1
  exact h1

theorem sortBlocks_pair (b0 b1 : TextBlock) (h : b0.image_index < b1.image_index) :
    sortBlocks [b0, b1] = [b0, b1] := by
  show insertBlock b0 (insertBlock b1 (sortBlocks [])) = [b0, b1]
  show insertBlock b0 [b1] = [b0, b1]
  show (if blockLe b0 b1 then [b0, b1] else b1 :: insertBlock b0 []) = [b0, b1]
  have hle : blockLe b0 b1 = true := by
    unfold blockLe
    rw [if_pos h]
  rw [hle]
  rw [if_pos rfl]

theorem processBlock_spec (st : CoordState) (b : TextBlock)
    (hne : (processedText b).data ≠ [])
    (hnt : hasSubCI "<table>".data (processedText b).data = false)
    (hwords : splitWsCl (processedText b).data ≠ [])
    (hitems : is_list_item b.text = true → split_list_items (processedText b) ≠ []) :
    ∃ st', processBlock st b = (some (entryPage st b), st') ∧
      entryPage st b ≤ st'.page ∧ st'.prevBlockY = b.y ∧ st'.forceNewPage = false := by
  unfold processBlock
  dsimp only
  rw [if_neg hne]
  rw [if_neg (by rw [hnt]; exact Bool.false_ne_true)]
  by_cases hl : is_list_item b.text = true
  · rw [if_pos hl]
    rw [if_neg (hitems hl)]
    refine ⟨_, rfl, ?_, finishBlock_prev _ _, finishBlock_force _ _⟩
    rw [finishBlock_page, setCol_page, withPaging_page]
    exact listLoop_page_le _ _ _ _ _ _ _ _
  · rw [if_neg hl]
    split
    · split
      · rename_i hcur0
        exact absurd hcur0 (coordWrap_cur_ne _ _ _ _ _ (mem_splitWsCl_ne_nil _)
          (fun hh => absurd hh hwords))
      · refine ⟨_, rfl, ?_, finishBlock_prev _ _, finishBlock_force _ _⟩
        rw [finishBlock_page, setCol_page, withPaging_page]
        exact coordWrap_page_le (maxCharsOf b) (fontSizeOf b * (35/100)) (blockYmm b)
          (splitWsCl (processedText b).data)
          (WrapSt.mk (entrySt st b).page (entrySt st b).pageStartY
            (yMmOf (entrySt st b) b) [])
    · refine ⟨_, rfl, ?_, finishBlock_prev _ _, finishBlock_force _ _⟩
      rw [finishBlock_page, setCol_page]
      exact le_refl _

/-- C2 counterexample: two blocks with image indices zero and one where
block one's vertical position (five) is below block zero's (sixty) minus
the backward-jump threshold of fifty, yet both land on page zero: the
backward-jump trigger additionally requires the previous position to
exceed one hundred, which sixty does not. -/
theorem c2_backward_jump_counterexample :
    (TextBlock.mk "b" 0 5 0 0 false 1).y <
        (TextBlock.mk "a" 0 60 0 0 false 0).y - 50 ∧
      convert_with_coordinates_pages
        [TextBlock.mk "a" 0 60 0 0 false 0, TextBlock.mk "b" 0 5 0 0 false 1] =
        [some 0, some 0] :=
  ⟨by norm_num, by with_unfolding_all rfl⟩

/-- C2 amended: with the additional guard present in the code - the
previous block's vertical position must exceed one hundred - the
backward jump does force a page transition: for blocks with image
indices zero and one, block zero's position above one hundred, block
one's position below block zero's minus fifty, and both blocks
rendering visible non-table text (nonempty processed text with at least
one word, and a nonempty item list when classified as a list), block
zero is placed on a strictly earlier page than block one. -/
theorem c2_backward_jump_pagination_amended (b0 b1 : TextBlock)
    (hi0 : b0.image_index = 0) (hi1 : b1.image_index = 1)
    (hprev : b0.y > 100) (hjump : b1.y < b0.y - 50)
    (hne0 : (processedText b0).data ≠ [])
    (hnt0 : hasSubCI "<table>".data (processedText b0).data = false)
    (hwords0 : splitWsCl (processedText b0).data ≠ [])
    (hitems0 : is_list_item b0.text = true → split_list_items (processedText b0) ≠ [])
    (hne1 : (processedText b1).data ≠ [])
    (hnt1 : hasSubCI "<table>".data (processedText b1).data = false)
    (hwords1 : splitWsCl (processedText b1).data ≠ [])
    (hitems1 : is_list_item b1.text = true → split_list_items (processedText b1) ≠ []) :
    ∃ p0 p1 : Nat,
      convert_with_coordinates_pages [b0, b1] = [some p0, some p1] ∧ p0 < p1 := by
  obtain ⟨st1, he0, hle0, hprev0, hforce0⟩ :=
    processBlock_spec initState b0 hne0 hnt0 hwords0 hitems0
  obtain ⟨st2, he1, _, _, _⟩ := processBlock_spec st1 b1 hne1 hnt1 hwords1 hitems1
  refine ⟨entryPage initState b0, entryPage st1 b1, ?_, ?_⟩
  · unfold convert_with_coordinates_pages
    rw [sortBlocks_pair b0 b1 (by rw [hi0, hi1]; exact Nat.zero_lt_one)]
    rw [show layoutRun initState [b0, b1] =
      ((processBlock initState b0).1 ::
        (layoutRun (processBlock initState b0).2 [b1]).1,
       (layoutRun (processBlock initState b0).2 [b1]).2) from rfl]
    rw [he0]
    rw [show layoutRun st1 [b1] =
      ((processBlock st1 b1).1 :: (layoutRun (processBlock st1 b1).2 []).1,
       (layoutRun (processBlock st1 b1).2 []).2) from rfl]
    rw [he1]
    rfl
  · have hforce : forceFlag st1 b1 = true := by
      unfold forceFlag
      rw [hprev0]
      rw [decide_eq_true hprev, decide_eq_true hjump]
      rw [Bool.and_true, Bool.or_true]
    exact lt_of_le_of_lt hle0
      (lt_of_lt_of_le (Nat.lt_succ_self st1.page) (entryPage_force st1 b1 hforce))

/-- C2 witness: the amended pagination theorem applied to two concrete
blocks at vertical positions one hundred fifty and ten. -/
theorem c2_backward_jump_pagination_amended_witness :
    ((TextBlock.mk "a" 0 150 0 0 false 0).y > 100 ∧
      (TextBlock.mk "b" 0 10 0 0 false 1).y <
        (TextBlock.mk "a" 0 150 0 0 false 0).y - 50) ∧
    ∃ p0 p1 : Nat,
      convert_with_coordinates_pages
        [TextBlock.mk "a" 0 150 0 0 false 0, TextBlock.mk "b" 0 10 0 0 false 1] =
        [some p0, some p1] ∧ p0 < p1 :=
  ⟨⟨by with_unfolding_all decide, by with_unfolding_all decide⟩,
    c2_backward_jump_pagination_amended
      (TextBlock.mk "a" 0 150 0 0 false 0) (TextBlock.mk "b" 0 10 0 0 false 1)
      rfl rfl (by with_unfolding_all decide) (by with_unfolding_all decide)
      (by decide) (by decide) (by decide) (by decide) (by decide) (by decide)
      (by decide) (by decide)⟩

end OcrRust
